import Mathlib

/-!
A verification development for the `navi` tree-navigation engine
(package `ui`, file containing `TreeModel`).  The Go code is embedded
shallowly: nodes become a nested inductive, parent pointers become
positions (lists of child indices), maps become functions, and the
in-place mutation of the tree becomes pure structural rewriting.
-/

set_option maxHeartbeats 1000000

/-- A tree node, mirroring the Go struct `Node` (fields `Name`, `Path`,
`IsDir`, `IsHistory`, `Children`).  The `Parent` back-pointer of the Go
struct is represented implicitly: a node is addressed by its position
(the list of child indices from the root), and the parent is the
position with the last index removed.  The transient layout fields
`X`, `Y` are kept outside the tree, in the layout state. -/
inductive Node where
  | mk (name : String) (path : String) (isDir : Bool) (isHistory : Bool)
       (children : List Node)

def Node.name : Node → String
  | .mk s _ _ _ _ => s

def Node.path : Node → String
  | .mk _ s _ _ _ => s

def Node.isDir : Node → Bool
  | .mk _ _ b _ _ => b

def Node.isHistory : Node → Bool
  | .mk _ _ _ b _ => b

def Node.children : Node → List Node
  | .mk _ _ _ _ cs => cs

def Node.setChildren : Node → List Node → Node
  | .mk n p d h _, cs => .mk n p d h cs

def Node.setIsDir : Node → Bool → Node
  | .mk n p _ h cs, d => .mk n p d h cs

def Node.setIsHistory : Node → Bool → Node
  | .mk n p d _ cs, h => .mk n p d h cs

instance : Inhabited Node := ⟨.mk "" "" false false []⟩

/-- Number of nodes in the tree; the measure for termination of the
compression pass. -/
def Node.size : Node → Nat
  | .mk _ _ _ _ cs => 1 + sizeList cs
where sizeList : List Node → Nat
  | [] => 0
  | c :: cs => Node.size c + sizeList cs

/- ---------------------------------------------------------------
Go string primitives, re-implemented so that they reduce in the kernel.
--------------------------------------------------------------- -/

/-- `strings.Split(s, "/")`: split on every `/`, keeping empty fields;
`Split("", "/") = [""]`. -/
def goSplit (s : String) : List String :=
  go s.toList []
where go : List Char → List Char → List String
  | [], acc => [String.mk acc.reverse]
  | c :: rest, acc =>
      if c = '/' then String.mk acc.reverse :: go rest [] else go rest (c :: acc)

/-- `len(s)` in Go: the number of UTF-8 bytes of the string. -/
def goStrLen (s : String) : Nat :=
  (s.toList.map Char.utf8Size).sum

/-- One step of the element stack used by `path.Clean`. -/
def cleanStep (rooted : Bool) (acc : List String) (c : String) : List String :=
  if c = ".." then
    match acc with
    | [] => if rooted then [] else [".."]
    | top :: rest => if top = ".." then c :: acc else rest
  else c :: acc

def joinSegs : List String → String
  | [] => ""
  | [s] => s
  | s :: rest => s ++ "/" ++ joinSegs rest

/-- `path/filepath.Clean` for slash-separated paths: drop empty and `.`
elements, resolve `..` against the element stack, restore the leading
slash, and return `.` for an empty result. -/
def goClean (s : String) : String :=
  if s = "" then "."
  else
    let rooted := s.toList.headD ' ' = '/'
    let comps := (goSplit s).filter (fun c => ¬ (c = "" ∨ c = "."))
    let stack := comps.foldl (cleanStep rooted) []
    let body := joinSegs stack.reverse
    if rooted then
      if body = "" then "/" else "/" ++ body
    else
      if body = "" then "." else body

/-- `filepath.Join(a, b)`: join the non-empty arguments with `/` and
clean the result; all-empty input yields the empty string. -/
def goJoin (a b : String) : String :=
  if a = "" then (if b = "" then "" else goClean b)
  else if b = "" then goClean a
  else goClean (a ++ "/" ++ b)

/-- `strings.TrimPrefix(s, pre)`. -/
def goTrimPrefix (s pre : String) : String :=
  if pre.toList.isPrefixOf s.toList then String.mk (s.toList.drop pre.toList.length) else s

/- ---------------------------------------------------------------
buildTree
--------------------------------------------------------------- -/

/-- Replace the first child whose name is `nm` (the child the Go code
located by its `c.Name == part` scan and then mutated through the
pointer). -/
def replaceFirstByName (nm : String) (newC : Node) : List Node → List Node
  | [] => []
  | c :: cs => if c.name = nm then newC :: cs else c :: replaceFirstByName nm newC cs

/-- The body of `buildTree`'s insertion loop for one path.  `parts` is
the remaining segment list, `node` the current node.  Reaching `[]`
corresponds to the code after the loop, which marks the final node
historical when the full path is in the history set.  Each iteration
finds or appends a child, possibly re-marks it historical, and sets its
`IsDir` to true (the Go loop does this unconditionally for every
visited node, the final segment included). -/
def insertLoop (hist : String → Bool) (path : String) (node : Node) :
    List String → Node
  | [] => if hist path then node.setIsHistory true else node
  | part :: rest =>
      match node.children.find? (fun c => c.name = part) with
      | none =>
          let childPath := goJoin node.path part
          let isDir0 : Bool := decide (rest ≠ [])
          let isHist0 : Bool := hist path || hist childPath
          let child0 : Node := .mk part childPath isDir0 isHist0 []
          let child1 := insertLoop hist path (child0.setIsDir true) rest
          node.setChildren (node.children ++ [child1])
      | some c =>
          let c1 := if hist path || hist c.path then c.setIsHistory true else c
          let c2 := insertLoop hist path (c1.setIsDir true) rest
          node.setChildren (replaceFirstByName part c2 node.children)

/-- `buildTree(paths, historyPaths)`: fold every path into the synthetic
root `ROOT` (path `"."`, a directory). -/
def buildTree (hist : String → Bool) (paths : List String) : Node :=
  paths.foldl (fun root p => insertLoop hist p root (goSplit p))
    (.mk "ROOT" "." true false [])

/- ---------------------------------------------------------------
compressTree and countLeaves
--------------------------------------------------------------- -/

/-- `countLeaves(n)`: a node with no children counts as one leaf,
otherwise the leaf counts of the children are summed. -/
def countLeaves : Node → Nat
  | .mk _ _ _ _ [] => 1
  | .mk _ _ _ _ (c :: cs) => go (c :: cs)
where go : List Node → Nat
  | [] => 0
  | c :: cs => countLeaves c + go cs

/-- `compressTree`, with an explicit fuel argument standing for the
well-founded recursion of the Go function (which recurses both into the
children and into the freshly merged node).  `compressTree` below
instantiates the fuel with the node count; `compressTreeF_size_le` and
`compressTreeF_eq_of_le` show that this fuel is never exhausted.
Branches, in source order: the `!IsDir || no children` early return,
compression of the children, the `ROOT` guard, the single-child merge
with its `len > 18 && leaves > 4` skip, and the re-compression of the
merged node (which adopts the child's path, directory flag and
children; the grandchildren's parent pointers of the Go code are
positions here, so their re-parenting is implicit). -/
def compressTreeF : Nat → Node → Node
  | 0, n => n
  | fuel + 1, .mk name path isDir isHist cs =>
    if isDir = false ∨ cs.length = 0 then .mk name path isDir isHist cs
    else if name = "ROOT" then .mk name path isDir isHist (cs.map (compressTreeF fuel))
    else
      match cs.map (compressTreeF fuel) with
      | [c] =>
          if 18 < goStrLen name + 1 + goStrLen c.name ∧ 4 < countLeaves c then
            .mk name path isDir isHist [c]
          else
            compressTreeF fuel (.mk (goJoin name c.name) c.path c.isDir isHist c.children)
      | cs' => .mk name path isDir isHist cs'

def compressTree (n : Node) : Node := compressTreeF n.size n

/- ---------------------------------------------------------------
Positions: the shallow embedding of Go's node pointers.
A selection is the list of child indices leading from the root to the
selected node; the `Parent` pointer is `List.dropLast`.
--------------------------------------------------------------- -/

/-- Dereference a position. -/
def nodeAt? : Node → List Nat → Option Node
  | n, [] => some n
  | n, i :: rest =>
      match n.children[i]? with
      | some c => nodeAt? c rest
      | none => none

/-- `getExpandedMap`: the root, the selection and every ancestor of the
selection are expanded; in positions, the expanded set is exactly the
set of prefixes of the selection together with the root `[]`. -/
def getExpandedMap (sel p : List Nat) : Bool :=
  p.isEmpty || p.isPrefixOf sel

/-- `getVisibleChildren`, with each child paired with its index in the
full child list (the index is what the Go code recovers from the
`Parent` pointer).  Branches, in source order: collapsed nodes have no
visible children; the selection and its direct parent show all
children; any other ancestor shows only the child on the path to the
selection (in positions: the child at index `sel[len p]`); the final
fall-through returns all children (unreachable for a selection that
lies in the tree, since the root `[]` is a prefix of every selection). -/
def visibleChildrenIdx (sel p : List Nat) (n : Node) : List (Nat × Node) :=
  if getExpandedMap sel p = false then []
  else if p = sel ∨ (sel ≠ [] ∧ p = sel.dropLast) then n.children.enum
  else if p ≠ sel ∧ p <+: sel then
    match sel[p.length]? with
    | some i =>
        match n.children[i]? with
        | some c => [(i, c)]
        | none => []
    | none => []
  else n.children.enum

def getVisibleChildren (sel p : List Nat) (n : Node) : List Node :=
  (visibleChildrenIdx sel p n).map Prod.snd

/-- `moveSelection(delta)`: move to the previous/next entry of the
parent's full child list, clamped at both ends.  The Go code finds the
selection's index among its parent's children by pointer identity; in
positions that index is the selection's last coordinate. -/
def moveSelection (root : Node) (sel : List Nat) (delta : Int) : List Nat :=
  match sel with
  | [] => []
  | _ :: _ =>
    let parentPos := sel.dropLast
    match nodeAt? root parentPos with
    | none => sel
    | some parent =>
      let i : Nat := sel.getLastD 0
      let next : Int := (i : Int) + delta
      if 0 ≤ next ∧ next < parent.children.length then parentPos ++ [next.toNat] else sel

/-- `enterDirectory`: on a directory with at least one child, move to
its first child. -/
def enterDirectory (root : Node) (sel : List Nat) : List Nat :=
  match nodeAt? root sel with
  | some n => if n.isDir = true ∧ n.children.length > 0 then sel ++ [0] else sel
  | none => sel

/-- `leaveDirectory`: move to the parent when both the parent and the
grandparent exist (i.e. the selection is at depth ≥ 2 below the
synthetic `ROOT`). -/
def leaveDirectory (sel : List Nat) : List Nat :=
  if 2 ≤ sel.length then sel.dropLast else sel

/- ---------------------------------------------------------------
findNode and the model constructor
--------------------------------------------------------------- -/

/-- The children of a node, paired with their positions, in child-list
order (what `stack = append(stack, n.Children...)` pushes). -/
def pushChildren (p : List Nat) : List Node → Nat → List (List Nat × Node)
  | [], _ => []
  | c :: rest, i => (p ++ [i], c) :: pushChildren p rest (i + 1)

def stackSize : List (List Nat × Node) → Nat
  | [] => 0
  | (_, n) :: rest => n.size + stackSize rest

/-- The DFS stack loop of `findNode`, with fuel standing for its
termination measure: pop from the top, return the node whose `Path`
matches, push the popped node's children (so the last child is explored
first, as in the Go slice-backed stack).  Popping a node and pushing
its children shrinks the total stack size by exactly one, so the fuel
`stackSize stack` used by `findDFS` below is exact
(`findDFS_cons` recovers the fuel-free recursion equation). -/
def findDFSF : Nat → String → List (List Nat × Node) → Option (List Nat × Node)
  | _, _, [] => none
  | 0, _, _ :: _ => none
  | f + 1, target, (p, n) :: rest =>
      if n.path = target then some (p, n)
      else findDFSF f target ((pushChildren p n.children 0).reverse ++ rest)

def findDFS (target : String) (stack : List (List Nat × Node)) :
    Option (List Nat × Node) :=
  findDFSF (stackSize stack) target stack

/-- `findNode(root, targetPath)`: the initial `root.Path` test followed
by the DFS (which re-checks the root; both tests agree). -/
def findNode (root : Node) (target : String) : Option (List Nat × Node) :=
  if root.path = target then some ([], root)
  else findDFS target [([], root)]

/-- The selection made by `NewTreeModel`: the node found for the
best-ranked path `paths[0]`, else the first child of the root, else the
root itself; the same fallback with no paths. -/
def initialSelection (root : Node) (paths : List String) : List Nat :=
  match paths with
  | p0 :: _ =>
      match findNode root p0 with
      | some (pos, _) => pos
      | none => if root.children.length > 0 then [0] else []
  | [] => if root.children.length > 0 then [0] else []

/-- The persistent fields of the Go `TreeModel` that the claims are
about (scroll offset and column widths are recomputed by layout). -/
structure TreeModel where
  root : Node
  selected : List Nat
  width : Int
  height : Int
  scrollOffset : Int

/-- `NewTreeModel`: build, compress, and select; `ScrollOffset` starts
at the Go zero value. -/
def NewTreeModel (paths : List String) (width height : Int)
    (hist : String → Bool) : TreeModel :=
  let root := compressTree (buildTree hist paths)
  { root := root, selected := initialSelection root paths,
    width := width, height := height, scrollOffset := 0 }

/-- `SelectedPath()`: the selected node's path with a `ROOT/` prefix
stripped; the empty string only for a nil selection (which
`NewTreeModel` never produces — an invalid position plays that role
here). -/
def selectedPath (root : Node) (sel : List Nat) : String :=
  match nodeAt? root sel with
  | some n => goTrimPrefix n.path "ROOT/"
  | none => ""

/-- The display root computed at the top of `View`: descend while the
node has exactly one child and that child is a directory. -/
def displayRoot : Node → Node
  | .mk name path d h [c] =>
      if c.isDir = true then displayRoot c else .mk name path d h [c]
  | n => n

/-- The position of `displayRoot` in the tree. -/
def displayRootPos : Node → List Nat
  | .mk _ _ _ _ [c] => if c.isDir = true then 0 :: displayRootPos c else []
  | _ => []

def TreeModel.SelectedPath (m : TreeModel) : String :=
  selectedPath m.root m.selected

/- ---------------------------------------------------------------
C6: input order is preserved
--------------------------------------------------------------- -/

/-- First-occurrence order of a list of strings. -/
def firstOccurs : List String → List String := go []
where go (acc : List String) : List String → List String
  | [] => acc
  | s :: rest => if s ∈ acc then go acc rest else go (acc ++ [s]) rest

/-- The transient layout state of a pass: per-depth row counters
(`yCounters`), per-depth column widths (`ColWidths`), and the list of
`(position, X, Y)` coordinate assignments in visit order (the values
the Go code writes into the nodes' `X`, `Y` fields). -/
structure LState where
  ys : Nat → Nat
  widths : Nat → Nat
  assigns : List (List Nat × Nat × Nat)

def updateFn (f : Nat → Nat) (k v : Nat) : Nat → Nat :=
  fun x => if x = k then v else f x

/-- The display width `layoutAssign` computes for a node: raw name
length plus decoration, replaced by the elided `…/parent/child` form
for an unselected node whose name holds more than two merged segments,
then clamped to `[20, 40]`. -/
def nodeLayoutWidth (isSel : Bool) (n : Node) : Nat :=
  let w := goStrLen n.name + 4
  let w :=
    if isSel = false ∧ '/' ∈ n.name.toList then
      let parts := goSplit n.name
      if parts.length > 2 then
        goStrLen ("…/" ++ parts.getD (parts.length - 2) "" ++ "/"
          ++ parts.getD (parts.length - 1) "") + 4
      else w
    else w
  let w := if w > 40 then 40 else w
  if w < 20 then 20 else w

/-- `layoutAssign`, with fuel standing for the recursion into visible
children (`layoutRoot` supplies the node count, which bounds the
recursion depth).  Steps, in source order: assign X (recorded with the
position), assign Y from this depth's counter and bump it, raise this
depth's column width, recurse into the visible children. -/
def layoutAssignF : Nat → List Nat → List Nat → Node → Nat → LState → LState
  | 0, _, _, _, _, st => st
  | fuel + 1, sel, p, n, depth, st =>
    let y := st.ys depth
    let w := nodeLayoutWidth (decide (p = sel)) n
    let st1 : LState :=
      { ys := updateFn st.ys depth (y + 1)
        widths := if w > st.widths depth then updateFn st.widths depth w else st.widths
        assigns := st.assigns ++ [(p, depth, y)] }
    (visibleChildrenIdx sel p n).foldl
      (fun acc ic => layoutAssignF fuel sel (p ++ [ic.1]) ic.2 (depth + 1) acc) st1

/-- `layoutRoot`: fresh counters and widths, then a pass from the root
at depth 0. -/
def layoutRoot (sel : List Nat) (root : Node) : LState :=
  layoutAssignF root.size sel [] root 0 ⟨fun _ => 0, fun _ => 0, []⟩

/- ---------------------------------------------------------------
C10: string lemmas — split / join / clean on clean paths
--------------------------------------------------------------- -/

/-- A clean path segment: non-empty, not `.` or `..`, and without a
separator. -/
def CleanSeg (s : String) : Prop :=
  s ≠ "" ∧ s ≠ "." ∧ s ≠ ".." ∧ '/' ∉ s.toList

def pathAcc (base : String) (segs : List String) : String :=
  segs.foldl goJoin base

/-- The chain of first-matching named children, the walk both
`buildTree`'s insertion and a repeated `find child by name` perform. -/
def chainNode? : Node → List String → Option Node
  | t, [] => some t
  | t, s :: rest =>
      match t.children.find? (fun c => c.name = s) with
      | some c => chainNode? c rest
      | none => none

/-- Every node reachable by a clean name chain carries the path
accumulated by `filepath.Join` along that chain. -/
def PathInvRel (t : Node) : Prop :=
  ∀ (segs : List String) (n : Node), (∀ s ∈ segs, CleanSeg s) →
    chainNode? t segs = some n → n.path = pathAcc t.path segs

/-- All nodes of a tree, the root first. -/
def subtreeNodes : Node → List Node
  | .mk a b c d cs => .mk a b c d cs :: go cs
where go : List Node → List Node
  | [] => []
  | c :: rest => subtreeNodes c ++ go rest

instance (s : String) : Decidable (CleanSeg s) := by
  unfold CleanSeg
  exact inferInstance

/- ---------------------------------------------------------------
C8: the renderer.  Partial operations of the Go code (slice
allocation with a possibly negative length, byte slicing of a string,
indexed canvas writes) are modelled in `Option`; `none` is a Go
panic.  Cells hold the drawn rune (the lipgloss styling, pure ANSI
decoration around the same rune, is dropped).  Node `X`/`Y` fields are
read through the fresh layout assignment of this pass, with the Go
zero value `0` for a node the pass did not visit; the X shift applied
by `applyXShift` is added at read time.
--------------------------------------------------------------- -/

def canvasInit (w h : Int) : Option (List (List Char)) :=
  if h < 0 then none
  else if 0 < h ∧ w < 0 then none
  else some (List.replicate h.toNat (List.replicate w.toNat ' '))

def listSet? {α : Type} : List α → Nat → α → Option (List α)
  | [], _, _ => none
  | _ :: l, 0, v => some (v :: l)
  | a :: l, k + 1, v => (listSet? l k v).map (a :: ·)

def canvasWrite (canvas : List (List Char)) (sy x : Nat) (c : Char) :
    Option (List (List Char)) :=
  match canvas[sy]? with
  | none => none
  | some row => (listSet? row x c).bind (fun row' => listSet? canvas sy row')

/-- The rune loop of `drawString`: write each rune at `x + i`, skipping
columns outside `[0, w)`. -/
def drawGo (w : Int) (sy : Nat) (x : Int) :
    List (List Char) → Nat → List Char → Option (List (List Char))
  | canvas, _, [] => some canvas
  | canvas, i, r :: rest =>
      if 0 ≤ x + (i : Int) ∧ x + (i : Int) < w then
        match canvasWrite canvas sy (x + (i : Int)).toNat r with
        | some canvas' => drawGo w sy x canvas' (i + 1) rest
        | none => none
      else drawGo w sy x canvas (i + 1) rest

/-- `drawString`: skip rows outside the vertical scroll window and
starts at or right of the right edge, then write the runes. -/
def drawString (w h scroll : Int) (canvas : List (List Char)) (x y : Int)
    (s : List Char) : Option (List (List Char)) :=
  if y < scroll ∨ scroll + h ≤ y then some canvas
  else if w ≤ x then some canvas
  else drawGo w (y - scroll).toNat x canvas 0 s

def coordOf : List (List Nat × Nat × Nat) → List Nat → Option (Nat × Nat)
  | [], _ => none
  | (q, x, y) :: rest, p => if q = p then some (x, y) else coordOf rest p

def lookupX (assigns : List (List Nat × Nat × Nat)) (p : List Nat) : Int :=
  match coordOf assigns p with
  | some (x, _) => (x : Int)
  | none => 0

def lookupY (assigns : List (List Nat × Nat × Nat)) (p : List Nat) : Int :=
  match coordOf assigns p with
  | some (_, y) => (y : Int)
  | none => 0

def widthsAt (widths : Nat → Nat) (i : Int) : Nat :=
  if i < 0 then 0 else widths i.toNat

/-- Sum of `count` column widths starting at column `lo`. -/
def sumWidthsFrom (widths : Nat → Nat) (lo : Nat) : Nat → Nat
  | 0 => 0
  | k + 1 => widths lo + sumWidthsFrom widths (lo + 1) k

/-- The horizontal-scroll loop: drop columns from the left while the
accumulated width overflows the viewport, never moving past the
selection's column. -/
def scrollGo (widths : Nat → Nat) (width : Int) : Nat → Int → Nat → Nat
  | 0, _, sx => sx
  | f + 1, cw, sx =>
      if width < cw then scrollGo widths width f (cw - widths sx) (sx + 1) else sx

/-- `filepath.Join` of three elements (the elided `…/parent/child`
display name). -/
def goJoin3 (a b c : String) : String :=
  match [a, b, c].filter (fun x => x ≠ "") with
  | [] => ""
  | elems => goClean (joinSegs elems)

/-- Go byte slicing `s[:k]`: out of range is a panic; a cut inside a
rune keeps only the whole runes that fit (the partial trailing bytes of
the Go result are dropped — a display-content deviation only). -/
def charsByteTake : List Char → Nat → List Char
  | [], _ => []
  | c :: rest, k =>
      if c.utf8Size ≤ k then c :: charsByteTake rest (k - c.utf8Size) else []

def strByteTake (s : String) (k : Int) : Option String :=
  if 0 ≤ k ∧ k ≤ (goStrLen s : Int) then
    some (String.mk (charsByteTake s.toList k.toNat))
  else none

/-- The `for y := minY; y <= maxY; y++` connector loop, `count` steps
from `y`: branch glyph on child rows (with a trailing dash), vertical
bar elsewhere. -/
def connDraw (w h scroll vx : Int) (childrenYs : List Int) (minY maxY : Int)
    (clen : Nat) : Nat → Int → List (List Char) → Option (List (List Char))
  | 0, _, canvas => some canvas
  | k + 1, y, canvas =>
      let isChild := childrenYs.contains y
      let ch : Char :=
        if isChild then
          if y = minY then (if 1 < clen then '┬' else '─')
          else if y = maxY then '└' else '├'
        else '│'
      match drawString w h scroll canvas vx y [ch] with
      | none => none
      | some canvas' =>
          if isChild then
            match drawString w h scroll canvas' (vx + 1) y ['─'] with
            | none => none
            | some canvas2 => connDraw w h scroll vx childrenYs minY maxY clen k (y + 1) canvas2
          else connDraw w h scroll vx childrenYs minY maxY clen k (y + 1) canvas'

/-- The display name of a node in `renderNode`: the elided
`…/parent/child` form for an unselected multi-segment merged name,
then the trailing slash for directories. -/
def nodeDisplayName (sel p : List Nat) (n : Node) : String :=
  let name1 : String :=
    if p ≠ sel ∧ '/' ∈ n.name.toList then
      if 2 < (goSplit n.name).length then
        goJoin3 "…" ((goSplit n.name).getD ((goSplit n.name).length - 2) "")
          ((goSplit n.name).getD ((goSplit n.name).length - 1) "")
      else n.name
    else n.name
  if n.isDir = true then name1 ++ "/" else name1

/-- The name-truncation step of `renderNode`: a name longer than the
column width minus 2 is byte-sliced (a Go panic — `none` — when that
bound is negative) and suffixed with `..`. -/
def truncName (colWidth : Nat) (name2 : String) : Option String :=
  if (colWidth : Int) - 2 < (goStrLen name2 : Int) then
    (strByteTake name2 ((colWidth : Int) - 2)).map (· ++ "..")
  else some name2

/-- The per-node drawing step of `renderNode`: when the node's column
is at or right of the horizontal scroll and its screen X is left of the
viewport edge, draw the cursor and the truncated display name. -/
def drawNode (sel : List Nat) (assigns : List (List Nat × Nat × Nat))
    (widths : Nat → Nat) (shiftX : Int) (scrollX : Nat) (w h scroll : Int)
    (p : List Nat) (n : Node) (canvas : List (List Char)) :
    Option (List (List Char)) :=
  let nX : Int := lookupX assigns p + shiftX
  let nY : Int := lookupY assigns p
  let effX : Int := nX - scrollX
  let screenX : Int :=
    if 0 ≤ effX then (sumWidthsFrom widths scrollX (nX - scrollX).toNat : Int)
    else -100
  let colWidth : Nat := widthsAt widths nX
  if 0 ≤ effX ∧ screenX < w then
    let cursor : List Char := if p = sel then ['>', ' '] else []
    match truncName colWidth (nodeDisplayName sel p n) with
    | none => none
    | some name3 => drawString w h scroll canvas screenX nY (cursor ++ name3.toList)
  else some canvas

/-- The connector-drawing step of `renderNode`: when the node's column
is visible, draw the branch glyph column between the node and its
visible children. -/
def connNode (assigns : List (List Nat × Nat × Nat)) (widths : Nat → Nat)
    (shiftX : Int) (scrollX : Nat) (w h scroll : Int) (p : List Nat)
    (cs : List (Nat × Node)) (canvas : List (List Char)) :
    Option (List (List Char)) :=
  let nX : Int := lookupX assigns p + shiftX
  let colWidth : Nat := widthsAt widths nX
  let childrenYs : List Int := cs.map (fun ic => lookupY assigns (p ++ [ic.1]))
  if (scrollX : Int) ≤ nX then
    let parentScreenX : Int := (sumWidthsFrom widths scrollX (nX - scrollX).toNat : Int)
    let vx : Int := parentScreenX + (colWidth : Int) - 2
    if vx < w then
      let minY : Int := childrenYs.headD 0
      let maxY : Int := childrenYs.getLastD 0
      connDraw w h scroll vx childrenYs minY maxY cs.length
        (maxY + 1 - minY).toNat minY canvas
    else some canvas
  else some canvas

/-- `renderNode`, with fuel standing for the recursion into visible
children (as for `layoutAssignF`): compute this node's screen position
from its (shifted) column and the column widths, draw the cursor, the
possibly elided and truncated name and the directory slash when the
node is on screen, draw the connector glyphs towards the visible
children, and recurse. -/
def renderNodeF (sel : List Nat) (assigns : List (List Nat × Nat × Nat))
    (widths : Nat → Nat) (shiftX : Int) (scrollX : Nat) (w h scroll : Int) :
    Nat → List Nat → Node → List (List Char) → Option (List (List Char))
  | 0, _, _, canvas => some canvas
  | fuel + 1, p, n, canvas =>
    match drawNode sel assigns widths shiftX scrollX w h scroll p n canvas with
    | none => none
    | some canvas1 =>
      match visibleChildrenIdx sel p n with
      | [] => some canvas1
      | c0 :: crest =>
        match connNode assigns widths shiftX scrollX w h scroll p (c0 :: crest)
            canvas1 with
        | none => none
        | some canvas2 =>
            (c0 :: crest).foldlM
              (fun cv ic =>
                renderNodeF sel assigns widths shiftX scrollX w h scroll fuel
                  (p ++ [ic.1]) ic.2 cv)
              canvas2

def flattenCanvas : List (List Char) → List Char
  | [] => []
  | [row] => row
  | row :: rest => row ++ '\n' :: flattenCanvas rest

/-- The display-root X shift of `View()`: everything left of the
display root's column is shifted off screen (one extra column for the
root itself). -/
def viewShiftX (m : TreeModel) : Int :=
  if displayRootPos m.root ≠ [] then
    -(lookupX (layoutRoot m.selected m.root).assigns (displayRootPos m.root) + 1)
  else -1

/-- The horizontal scroll of `View()`: drop leading columns until the
selection's column fits the viewport. -/
def viewScrollX (m : TreeModel) : Nat :=
  let st := layoutRoot m.selected m.root
  let targetCol : Int := lookupX st.assigns m.selected + viewShiftX m
  if 0 < targetCol then
    scrollGo st.widths m.width targetCol.toNat
      (sumWidthsFrom st.widths 0 (targetCol.toNat + 1) : Int) 0
  else 0

/-- `View()`: fresh layout, display-root shift, horizontal scroll,
canvas allocation, recursive render, and serialisation. -/
def TreeModel.View (m : TreeModel) : Option String :=
  match canvasInit m.width m.height with
  | none => none
  | some canvas0 =>
    match renderNodeF m.selected (layoutRoot m.selected m.root).assigns
        (layoutRoot m.selected m.root).widths (viewShiftX m) (viewScrollX m)
        m.width m.height m.scrollOffset m.root.size [] m.root canvas0 with
    | none => none
    | some canvas => some (String.mk (flattenCanvas canvas))

/-- Well-formed canvas for a `w × h` viewport. -/
def CanvasWF (w h : Int) (canvas : List (List Char)) : Prop :=
  canvas.length = h.toNat ∧ ∀ row ∈ canvas, row.length = w.toNat

/-- The positions (with their nodes) that the layout and render passes
traverse, with the same fuel discipline as `layoutAssignF` and
`renderNodeF`. -/
def visitedList : Nat → List Nat → List Nat → Node → List (List Nat × Node)
  | 0, _, _, _ => []
  | fuel + 1, sel, p, n =>
      (p, n) :: ((visibleChildrenIdx sel p n).map
        (fun ic => visitedList fuel sel (p ++ [ic.1]) ic.2)).flatten

theorem Node.size_pos (n : Node) : 0 < n.size := by
  cases n with
  | mk name path d h cs => simp [Node.size]

theorem size_mem_le {c : Node} {cs : List Node} (h : c ∈ cs) :
    c.size ≤ Node.size.sizeList cs := by
  induction cs with
  | nil => cases h
  | cons d ds ih =>
    rcases List.mem_cons.mp h with h | h
    · subst h; simp only [Node.size.sizeList]; omega
    · have := ih h; simp only [Node.size.sizeList]; omega

theorem sizeList_map_le {g : Node → Node} {cs : List Node}
    (h : ∀ c ∈ cs, (g c).size ≤ c.size) :
    Node.size.sizeList (cs.map g) ≤ Node.size.sizeList cs := by
  induction cs with
  | nil => simp
  | cons c cs ih =>
    simp only [List.map_cons, Node.size.sizeList]
    have h1 := h c (by simp)
    have h2 := ih (fun x hx => h x (by simp [hx]))
    omega

/-- Compression never increases the node count. -/
theorem compressTreeF_size_le : ∀ (f : Nat) (n : Node),
    (compressTreeF f n).size ≤ n.size := by
  intro f
  induction f with
  | zero => intro n; simp [compressTreeF]
  | succ f ih =>
    intro n
    cases n with
    | mk name path isDir isHist cs =>
      have hmap : Node.size.sizeList (cs.map (compressTreeF f)) ≤ Node.size.sizeList cs :=
        sizeList_map_le (fun c _ => ih c)
      simp only [compressTreeF]
      split
      · exact Nat.le_refl _
      · split
        · simp only [Node.size]; omega
        · split
          · next c hc =>
            split
            · -- threshold skip: children already compressed
              simp only [Node.size]
              rw [← hc]
              omega
            · -- merge with the single compressed child, then re-compress
              obtain ⟨c0, hc0, hcc⟩ : ∃ c0, cs = [c0] ∧ compressTreeF f c0 = c := by
                cases cs with
                | nil => simp at hc
                | cons a l =>
                  cases l with
                  | nil =>
                    simp only [List.map_cons, List.map_nil, List.cons.injEq, and_true] at hc
                    exact ⟨a, rfl, hc⟩
                  | cons b l2 => simp at hc
              have h1 := ih (Node.mk (goJoin name c.name) c.path c.isDir isHist c.children)
              have h2 : (Node.mk (goJoin name c.name) c.path c.isDir isHist c.children).size
                  = c.size := by
                cases c with
                | mk cn cp cd ch cc => simp [Node.size, Node.children]
              have h3 : c.size ≤ c0.size := by rw [← hcc]; exact ih c0
              subst hc0
              simp only [Node.size, Node.size.sizeList] at *
              omega
          · next hne =>
            simp only [Node.size]
            omega

/-- With enough fuel, the fuel amount is irrelevant: `compressTreeF`
computes the fixed recursion of the Go `compressTree`. -/
theorem compressTreeF_eq_of_le (f : Nat) : ∀ (g : Nat) (n : Node),
    n.size ≤ f → n.size ≤ g → compressTreeF f n = compressTreeF g n := by
  induction f using Nat.strong_induction_on with
  | _ f ih =>
    intro g n hf hg
    cases f with
    | zero => exact absurd hf (by have := Node.size_pos n; omega)
    | succ f =>
      cases g with
      | zero => exact absurd hg (by have := Node.size_pos n; omega)
      | succ g =>
        cases n with
        | mk name path isDir isHist cs =>
          have hszcs : Node.size.sizeList cs ≤ f ∧ Node.size.sizeList cs ≤ g := by
            simp only [Node.size] at hf hg; omega
          have hcs : ∀ c ∈ cs, compressTreeF f c = compressTreeF g c := by
            intro c hc
            have h1 : c.size ≤ Node.size.sizeList cs := size_mem_le hc
            exact ih f (Nat.lt_succ_self f) g c (by omega) (by omega)
          have hmapeq : cs.map (compressTreeF f) = cs.map (compressTreeF g) :=
            List.map_congr_left hcs
          simp only [compressTreeF]
          rw [hmapeq]
          split
          · rfl
          · split
            · rfl
            · split
              · next c hc =>
                split
                · rfl
                · -- the re-compression of the merged node
                  obtain ⟨c0, hc0, hcc⟩ : ∃ c0, cs = [c0] ∧ compressTreeF g c0 = c := by
                    cases cs with
                    | nil => simp at hc
                    | cons a l =>
                      cases l with
                      | nil =>
                        simp only [List.map_cons, List.map_nil, List.cons.injEq, and_true] at hc
                        exact ⟨a, rfl, hc⟩
                      | cons b l2 => simp at hc
                  have hcle : c.size ≤ c0.size := by rw [← hcc]; exact compressTreeF_size_le g c0
                  have hms : (Node.mk (goJoin name c.name) c.path c.isDir isHist c.children).size
                      = c.size := by
                    cases c with
                    | mk cn cp cd ch cc => simp [Node.size, Node.children]
                  have hc0s : c0.size ≤ Node.size.sizeList cs := by
                    subst hc0; simp only [Node.size.sizeList]; omega
                  exact ih f (Nat.lt_succ_self f) g _ (by omega) (by omega)
              · rfl

/-- The recursion equation of the Go `compressTree`, stated directly on
`compressTree` (fuel eliminated). -/
theorem compressTree_eq (name path : String) (isDir isHist : Bool) (cs : List Node) :
    compressTree (.mk name path isDir isHist cs) =
      if isDir = false ∨ cs.length = 0 then .mk name path isDir isHist cs
      else if name = "ROOT" then .mk name path isDir isHist (cs.map compressTree)
      else
        match cs.map compressTree with
        | [c] =>
            if 18 < goStrLen name + 1 + goStrLen c.name ∧ 4 < countLeaves c then
              .mk name path isDir isHist [c]
            else
              compressTree (.mk (goJoin name c.name) c.path c.isDir isHist c.children)
        | cs' => .mk name path isDir isHist cs' := by
  have hmapeq : cs.map (compressTreeF (Node.size.sizeList cs)) = cs.map compressTree := by
    apply List.map_congr_left
    intro c hc
    exact compressTreeF_eq_of_le _ _ c (size_mem_le hc) (Nat.le_refl _)
  have hsz : Node.size (.mk name path isDir isHist cs) = Node.size.sizeList cs + 1 := by
    simp [Node.size]; omega
  show compressTreeF (Node.size (.mk name path isDir isHist cs)) _ = _
  rw [hsz]
  simp only [compressTreeF]
  rw [hmapeq]
  split
  · rfl
  · split
    · rfl
    · split
      · next c hc =>
        split
        · rfl
        · -- both sides re-compress the merged node; align the fuel
          obtain ⟨c0, hc0, hcc⟩ : ∃ c0, cs = [c0] ∧ compressTree c0 = c := by
            cases cs with
            | nil => simp at hc
            | cons a l =>
              cases l with
              | nil =>
                simp only [List.map_cons, List.map_nil, List.cons.injEq, and_true] at hc
                exact ⟨a, rfl, hc⟩
              | cons b l2 => simp at hc
          have hcle : c.size ≤ c0.size := by
            rw [← hcc]; exact compressTreeF_size_le _ c0
          have hms : (Node.mk (goJoin name c.name) c.path c.isDir isHist c.children).size
              = c.size := by
            cases c with
            | mk cn cp cd ch cc => simp [Node.size, Node.children]
          have hc0s : c0.size ≤ Node.size.sizeList cs := by
            subst hc0; simp only [Node.size.sizeList]; omega
          exact compressTreeF_eq_of_le _ _ _ (by omega) (by omega)
      · rfl

/-- Claim C1: for a non-`ROOT` directory node whose (already compressed)
child list is exactly one node `c`, the pass merges the node with `c` —
label joined with the separator, path, directory flag and children
adopted, and the merged node re-checked by another compression pass —
if and only if it is not the case that the joined label length exceeds
18 and `c`'s subtree has more than 4 leaves; otherwise the node is left
un-merged. -/
theorem compress_single_child_merge_iff (name path : String) (isHist : Bool)
    (cs : List Node) (c : Node)
    (hname : name ≠ "ROOT") (hc : cs.map compressTree = [c]) :
    compressTree (.mk name path true isHist cs) =
      if 18 < goStrLen name + 1 + goStrLen c.name ∧ 4 < countLeaves c then
        .mk name path true isHist [c]
      else
        compressTree (.mk (goJoin name c.name) c.path c.isDir isHist c.children) := by
  have hlen : cs.length = 1 := by
    have := congrArg List.length hc
    simpa using this
  rw [compressTree_eq]
  simp [hname, hlen, hc]

/-- A concrete instance of `compress_single_child_merge_iff`: the
single-child chain `a → b` merges into one node `a/b`. -/
theorem compress_single_child_merge_iff_witness :
    (("a" : String) ≠ "ROOT" ∧
      [Node.mk "b" "a/b" true false []].map compressTree = [Node.mk "b" "a/b" true false []]) ∧
    compressTree (.mk "a" "a" true false [Node.mk "b" "a/b" true false []]) =
      if 18 < goStrLen "a" + 1 + goStrLen (Node.mk "b" "a/b" true false []).name ∧
          4 < countLeaves (Node.mk "b" "a/b" true false []) then
        .mk "a" "a" true false [Node.mk "b" "a/b" true false []]
      else
        compressTree (.mk (goJoin "a" (Node.mk "b" "a/b" true false []).name)
          (Node.mk "b" "a/b" true false []).path
          (Node.mk "b" "a/b" true false []).isDir false
          (Node.mk "b" "a/b" true false []).children) :=
  ⟨⟨by decide, by rfl⟩,
    compress_single_child_merge_iff "a" "a" false _ _ (by decide) (by rfl)⟩

/-- Compression never changes a node's own historical flag: the merged
node keeps the original (parent) node's flag, whatever the absorbed
child's flag was. -/
theorem compressTreeF_isHistory : ∀ (f : Nat) (n : Node),
    (compressTreeF f n).isHistory = n.isHistory := by
  intro f
  induction f with
  | zero => intro n; simp [compressTreeF]
  | succ f ih =>
    intro n
    cases n with
    | mk name path isDir isHist cs =>
      simp only [compressTreeF]
      split
      · rfl
      · split
        · rfl
        · split
          · next c hc =>
            split
            · rfl
            · rw [ih]; rfl
          · rfl

/-- Amended claim C4: the compression pass leaves every node's
historical flag exactly as it was — a merge keeps the original node's
flag and never consults the absorbed child's flag, so an already-set
flag is never cleared, but a historical child absorbed into a
non-historical node does not make the result historical. -/
theorem compress_keeps_own_history (n : Node) :
    (compressTree n).isHistory = n.isHistory :=
  compressTreeF_isHistory _ n

/-- Counterexample to claim C4 as stated: building `a/b/c` with `a/b`
historical marks the intermediate node `b` historical; compression then
merges the chain `a → b → c`, absorbing the historical node `b`, yet the
merged node `a/b/c` is not historical — the flag is not OR'd in. -/
theorem compress_history_not_ored_cex :
    buildTree (fun s => s = "a/b") ["a/b/c"] =
      .mk "ROOT" "." true false
        [.mk "a" "a" true false
          [.mk "b" "a/b" true true
            [.mk "c" "a/b/c" true false []]]] ∧
    compressTree (buildTree (fun s => s = "a/b") ["a/b/c"]) =
      .mk "ROOT" "." true false [.mk "a/b/c" "a/b/c" true false []] :=
  ⟨rfl, rfl⟩

theorem nodeAt?_append (p : List Nat) (i : Nat) : ∀ (root : Node),
    nodeAt? root (p ++ [i]) = (nodeAt? root p).bind (fun n => n.children.get? i) := by
  induction p with
  | nil =>
    intro root
    cases h : root.children[i]? <;> simp [nodeAt?, h]
  | cons j rest ih =>
    intro root
    simp only [List.cons_append, nodeAt?]
    cases h : root.children[j]? <;> simp [ih]

theorem stackSize_append (a b : List (List Nat × Node)) :
    stackSize (a ++ b) = stackSize a + stackSize b := by
  induction a with
  | nil => simp [stackSize]
  | cons x xs ih =>
    cases x with
    | mk p n =>
      simp only [List.cons_append, stackSize, List.append_eq, ih]
      omega

theorem stackSize_reverse (a : List (List Nat × Node)) :
    stackSize a.reverse = stackSize a := by
  induction a with
  | nil => rfl
  | cons x xs ih =>
    cases x with
    | mk p n =>
      simp only [List.reverse_cons, stackSize_append, stackSize, ih]
      omega

theorem stackSize_pushChildren (p : List Nat) : ∀ (cs : List Node) (i : Nat),
    stackSize (pushChildren p cs i) = Node.size.sizeList cs := by
  intro cs
  induction cs with
  | nil => intro i; rfl
  | cons c rest ih =>
    intro i
    simp only [pushChildren, stackSize, Node.size.sizeList, ih]

theorem findDFS_cons (target : String) (p : List Nat) (n : Node)
    (rest : List (List Nat × Node)) :
    findDFS target ((p, n) :: rest) =
      if n.path = target then some (p, n)
      else findDFS target ((pushChildren p n.children 0).reverse ++ rest) := by
  show findDFSF (stackSize ((p, n) :: rest)) target ((p, n) :: rest) = _
  have h : stackSize ((p, n) :: rest) =
      stackSize ((pushChildren p n.children 0).reverse ++ rest) + 1 := by
    simp only [stackSize, stackSize_append, stackSize_reverse, stackSize_pushChildren]
    cases n with
    | mk nm pa d hh cs => simp only [Node.size, Node.children]; omega
  rw [h]
  rfl

/- ---------------------------------------------------------------
C7: empty path list
--------------------------------------------------------------- -/

/-- Counterexample to claim C7 as stated: with an empty path list the
selection resolves to the root, but `SelectedPath()` returns `"."` (the
synthetic root's path, unaffected by the `ROOT/`-prefix strip), not the
empty string. -/
theorem selectedPath_empty_cex :
    (NewTreeModel [] 80 20 (fun _ => false)).SelectedPath = "." ∧
    (NewTreeModel [] 80 20 (fun _ => false)).SelectedPath ≠ "" :=
  ⟨rfl, by decide⟩

/-- Amended claim C7: building from an empty path list yields a tree
consisting of only the root node, the selection resolves to that root,
and `SelectedPath()` returns `"."` — the root's own path — rather than
the empty string (which is returned only for a nil selection). -/
theorem newTreeModel_empty (width height : Int) (hist : String → Bool) :
    (NewTreeModel [] width height hist).root = .mk "ROOT" "." true false [] ∧
    (NewTreeModel [] width height hist).selected = [] ∧
    nodeAt? (NewTreeModel [] width height hist).root
      (NewTreeModel [] width height hist).selected =
      some (NewTreeModel [] width height hist).root ∧
    (NewTreeModel [] width height hist).SelectedPath = "." := by
  refine ⟨rfl, rfl, rfl, rfl⟩

/- ---------------------------------------------------------------
C2: visibility policy
--------------------------------------------------------------- -/

theorem nodeAt?_append_full (a : List Nat) : ∀ (b : List Nat) (root : Node),
    nodeAt? root (a ++ b) = (nodeAt? root a).bind (fun m => nodeAt? m b) := by
  induction a with
  | nil => intro b root; simp [nodeAt?]
  | cons i rest ih =>
    intro b root
    simp only [List.cons_append, nodeAt?]
    cases h : root.children[i]? <;> simp [ih]

theorem nodeAt?_prefix_isSome {root m : Node} {a b : List Nat}
    (h : nodeAt? root (a ++ b) = some m) : (nodeAt? root a).isSome := by
  rw [nodeAt?_append_full] at h
  cases ha : nodeAt? root a with
  | none => rw [ha] at h; simp at h
  | some x => simp

/-- Claim C2: with a selection that lies in the tree, the visible
children of a node `n` at position `p` are: all of `n`'s children when
`p` is the selection or its direct parent; exactly the one child on the
path to the selection when `p` is any other ancestor of the selection
(the root included); and none when `p` is neither the selection nor an
ancestor of it nor the root (the root `[]` is an ancestor-or-self of
every selection, so the non-root qualifier is vacuous). -/
theorem visibility_single_thread (root : Node) (sel p : List Nat) (n selNode : Node)
    (hn : nodeAt? root p = some n) (hsel : nodeAt? root sel = some selNode) :
    ((p = sel ∨ (sel ≠ [] ∧ p = sel.dropLast)) →
        getVisibleChildren sel p n = n.children) ∧
    (p <+: sel → p ≠ sel → p ≠ sel.dropLast →
        ∃ c, getVisibleChildren sel p n = [c] ∧
          nodeAt? root (sel.take (p.length + 1)) = some c) ∧
    (¬ p <+: sel → p ≠ [] → getVisibleChildren sel p n = []) := by
  refine ⟨?_, ?_, ?_⟩
  · intro hcase
    have hexp : getExpandedMap sel p = true := by
      rcases hcase with h | ⟨hne, h⟩
      · subst h
        simp [getExpandedMap, List.isPrefixOf_iff_prefix]
      · subst h
        simp [getExpandedMap, List.isPrefixOf_iff_prefix, List.dropLast_prefix]
    simp [getVisibleChildren, visibleChildrenIdx, hexp, hcase, List.enum_map_snd]
  · intro hpre hne hnp
    have hexp : getExpandedMap sel p = true := by
      simp [getExpandedMap, List.isPrefixOf_iff_prefix.mpr hpre]
    have hsne : sel ≠ [] := by
      intro h
      subst h
      exact hne (List.prefix_nil.mp hpre)
    have hcase : ¬ (p = sel ∨ (sel ≠ [] ∧ p = sel.dropLast)) := by
      rintro (h | ⟨_, h⟩)
      · exact hne h
      · exact hnp h
    obtain ⟨rest, hrest⟩ := hpre
    have hrne : rest ≠ [] := by
      intro h
      rw [h, List.append_nil] at hrest
      exact hne hrest
    obtain ⟨r0, rtail, hr0⟩ := List.exists_cons_of_ne_nil hrne
    have hgetp : sel[p.length]? = some r0 := by
      rw [← hrest, hr0, List.getElem?_append_right (Nat.le_refl _)]
      simp
    have htake : sel.take (p.length + 1) = p ++ [r0] := by
      rw [← hrest, hr0, show r0 :: rtail = [r0] ++ rtail from rfl, ← List.append_assoc]
      have h1 := @List.take_append _ (p ++ [r0]) rtail 0
      simpa using h1
    have hself : sel = (p ++ [r0]) ++ rtail := by
      rw [← hrest, hr0]; simp
    have happ : nodeAt? root (p ++ [r0]) = n.children[r0]? := by
      rw [nodeAt?_append_full, hn]
      cases h : n.children[r0]? <;> simp [nodeAt?, h]
    have hsome : (n.children[r0]?).isSome := by
      rw [← happ]
      exact nodeAt?_prefix_isSome (hself ▸ hsel)
    obtain ⟨c, hc⟩ := Option.isSome_iff_exists.mp hsome
    refine ⟨c, ?_, ?_⟩
    · have hpre2 : p <+: sel := ⟨rest, hrest⟩
      simp [getVisibleChildren, visibleChildrenIdx, hexp, hcase, hne, hnp, hpre2, hgetp, hc]
    · rw [htake, happ]
      exact hc
  · intro hpre hne
    have hexp : getExpandedMap sel p = false := by
      simp only [getExpandedMap, Bool.or_eq_false_iff]
      constructor
      · simpa [List.isEmpty_iff] using hne
      · by_contra h
        simp only [Bool.not_eq_false, List.isPrefixOf_iff_prefix] at h
        exact hpre h
    simp [getVisibleChildren, visibleChildrenIdx, hexp]

/-- A concrete instance of `visibility_single_thread`: with the
selection two levels deep, the root (a strict ancestor, not the parent)
shows exactly the one child on the selection path. -/
theorem visibility_single_thread_witness :
    ∃ c, getVisibleChildren [0, 0] []
        (Node.mk "ROOT" "." true false
          [Node.mk "a" "a" true false [Node.mk "x" "a/x" true false []],
           Node.mk "b" "b" true false []]) = [c] ∧
      nodeAt? (Node.mk "ROOT" "." true false
          [Node.mk "a" "a" true false [Node.mk "x" "a/x" true false []],
           Node.mk "b" "b" true false []])
        (List.take (List.length ([] : List Nat) + 1) [0, 0]) = some c :=
  (visibility_single_thread
      (Node.mk "ROOT" "." true false
        [Node.mk "a" "a" true false [Node.mk "x" "a/x" true false []],
         Node.mk "b" "b" true false []])
      [0, 0] []
      (Node.mk "ROOT" "." true false
        [Node.mk "a" "a" true false [Node.mk "x" "a/x" true false []],
         Node.mk "b" "b" true false []])
      (Node.mk "x" "a/x" true false [])
      rfl rfl).2.1 (by decide) (by decide) (by decide)

/- ---------------------------------------------------------------
C5: navigation bounds
--------------------------------------------------------------- -/

/-- Amended claim C5: `move(-1)` at the first sibling, `move(+1)` at the
last sibling, and `enter` on a childless node are no-ops; `leave` is a
no-op exactly when the selection is the synthetic root or one of its
direct children — not when it is a child of the (possibly deeper)
display root. -/
theorem navigation_bounds (root : Node) (sel : List Nat) :
    (sel.getLastD 0 = 0 → moveSelection root sel (-1) = sel) ∧
    (∀ parent, nodeAt? root sel.dropLast = some parent →
        sel.getLastD 0 + 1 = parent.children.length →
        moveSelection root sel 1 = sel) ∧
    (∀ n, nodeAt? root sel = some n → n.children = [] →
        enterDirectory root sel = sel) ∧
    (leaveDirectory sel = sel ↔ sel.length ≤ 1) := by
  refine ⟨?_, ?_, ?_, ?_⟩
  · intro hfirst
    cases sel with
    | nil => rfl
    | cons a as =>
      simp only [moveSelection]
      cases h : nodeAt? root (a :: as).dropLast with
      | none => rfl
      | some parent =>
        simp only [List.getLastD_eq_getLast?] at hfirst
        simp [hfirst]
  · intro parent hpar hlast
    cases sel with
    | nil => rfl
    | cons a as =>
      simp only [moveSelection, hpar]
      rw [if_neg]
      intro ⟨h1, h2⟩
      rw [← hlast] at h2
      omega
  · intro n hn hleaf
    simp [enterDirectory, hn, hleaf]
  · constructor
    · intro h
      by_contra hlen
      have h2 : 2 ≤ sel.length := by omega
      rw [leaveDirectory, if_pos h2] at h
      have := congrArg List.length h
      rw [List.length_dropLast] at this
      omega
    · intro h
      rw [leaveDirectory, if_neg (by omega)]

/-- A concrete instance of `navigation_bounds`: in the two-sibling tree
`ROOT → [a, b]` with the selection on `b` (the last sibling),
`move(+1)` is a no-op. -/
theorem navigation_bounds_witness :
    moveSelection
      (Node.mk "ROOT" "." true false
        [Node.mk "a" "a" true false [], Node.mk "b" "b" true false []])
      [1] 1 = [1] :=
  (navigation_bounds
      (Node.mk "ROOT" "." true false
        [Node.mk "a" "a" true false [], Node.mk "b" "b" true false []])
      [1]).2.1
    (Node.mk "ROOT" "." true false
      [Node.mk "a" "a" true false [], Node.mk "b" "b" true false []])
    rfl (by decide)

/-- Counterexample to claim C5 as stated: with paths
`["a/b/x.go", "a/b/y.go"]` the display root is the merged node `a/b`
(at position `[0]`), not the synthetic root; the selection `[0, 0]`
(`x.go`) is at the top visible level (a child of the display root,
drawn at column 0), yet `leave` moves it to the hidden node `a/b`
instead of being a no-op. -/
theorem leave_top_visible_not_noop_cex :
    displayRootPos (NewTreeModel ["a/b/x.go", "a/b/y.go"] 80 20 (fun _ => false)).root
        = [0] ∧
    ([0, 0] : List Nat)
        = displayRootPos (NewTreeModel ["a/b/x.go", "a/b/y.go"] 80 20
            (fun _ => false)).root ++ [0] ∧
    (nodeAt? (NewTreeModel ["a/b/x.go", "a/b/y.go"] 80 20 (fun _ => false)).root
        [0, 0]).isSome = true ∧
    leaveDirectory [0, 0] ≠ [0, 0] :=
  ⟨rfl, rfl, rfl, by decide⟩

/- ---------------------------------------------------------------
C3: selection after a rebuild
--------------------------------------------------------------- -/

theorem pushChildren_mem (p : List Nat) : ∀ (cs : List Node) (i : Nat)
    (q : List Nat) (m : Node),
    (q, m) ∈ pushChildren p cs i → ∃ j, cs[j]? = some m ∧ q = p ++ [i + j] := by
  intro cs
  induction cs with
  | nil => intro i q m h; simp [pushChildren] at h
  | cons c rest ih =>
    intro i q m h
    simp only [pushChildren, List.mem_cons] at h
    rcases h with h | h
    · rw [Prod.mk.injEq] at h
      exact ⟨0, by simp [h.2.symm], by simp [h.1]⟩
    · obtain ⟨j, hj, hq⟩ := ih (i + 1) q m h
      refine ⟨j + 1, by simpa using hj, ?_⟩
      rw [hq]
      congr 2
      omega

/-- Soundness of the DFS: on a stack of position-correct entries, a hit
is a node of the tree whose `Path` equals the target. -/
theorem findDFSF_sound (root : Node) (target : String) :
    ∀ (f : Nat) (stack : List (List Nat × Node)) (p : List Nat) (n : Node),
      (∀ q m, (q, m) ∈ stack → nodeAt? root q = some m) →
      findDFSF f target stack = some (p, n) →
      nodeAt? root p = some n ∧ n.path = target := by
  intro f
  induction f with
  | zero =>
    intro stack p n hval h
    cases stack with
    | nil => simp [findDFSF] at h
    | cons e rest => obtain ⟨q, m⟩ := e; simp [findDFSF] at h
  | succ f ih =>
    intro stack p n hval h
    cases stack with
    | nil => simp [findDFSF] at h
    | cons e rest =>
      obtain ⟨q, m⟩ := e
      simp only [findDFSF] at h
      by_cases hp : m.path = target
      · rw [if_pos hp] at h
        have hqp : q = p ∧ m = n := by simpa using h
        obtain ⟨rfl, rfl⟩ := hqp
        exact ⟨hval _ _ (by simp), hp⟩
      · rw [if_neg hp] at h
        refine ih _ p n ?_ h
        intro q' m' hmem
        rcases List.mem_append.mp hmem with hmem | hmem
        · rw [List.mem_reverse] at hmem
          obtain ⟨j, hj, hq⟩ := pushChildren_mem q m.children 0 q' m' hmem
          subst hq
          rw [nodeAt?_append_full, hval q m (by simp)]
          have hsing : nodeAt? m [j] = m.children[j]? := by
            cases hcj : m.children[j]? <;> simp [nodeAt?, hcj]
          simpa [hsing] using hj
        · exact hval q' m' (List.mem_cons_of_mem _ hmem)

theorem findNode_sound (root : Node) (target : String) (p : List Nat) (n : Node)
    (h : findNode root target = some (p, n)) :
    nodeAt? root p = some n ∧ n.path = target := by
  unfold findNode at h
  by_cases hr : root.path = target
  · rw [if_pos hr] at h
    have hqp : ([] : List Nat) = p ∧ root = n := by simpa using h
    obtain ⟨hq1, hq2⟩ := hqp
    subst hq1; subst hq2
    exact ⟨rfl, hr⟩
  · rw [if_neg hr] at h
    refine findDFSF_sound root target _ _ p n ?_ h
    intro q m hm
    simp only [List.mem_singleton, Prod.mk.injEq] at hm
    obtain ⟨rfl, rfl⟩ := hm
    rfl

/-- Counterexample to claim C3 as stated: with the unchanged path list
`["a", "b"]`, the position `[1]` is a selection whose full path is the
listed path `"b"`, but rebuilding the model selects the node of the
first path `"a"` — the previous selection is not preserved. -/
theorem rebuild_resets_selection_cex :
    selectedPath (NewTreeModel ["a", "b"] 80 20 (fun _ => false)).root [1] = "b" ∧
    (NewTreeModel ["a", "b"] 80 20 (fun _ => false)).SelectedPath = "a" ∧
    ("a" : String) ≠ "b" :=
  ⟨rfl, rfl, by decide⟩

/-- Amended claim C3: a rebuild does not consult the previous selection
at all — for any non-empty path list whose first (best-ranked) path is
found in the rebuilt tree, the new selection is that node, so the
previous selection is preserved exactly when its path is the first
path. -/
theorem rebuild_selects_first_path (paths : List String) (p0 : String)
    (w h : Int) (hist : String → Bool)
    (hp : paths.head? = some p0) (pos : List Nat) (n : Node)
    (hfind : findNode (compressTree (buildTree hist paths)) p0 = some (pos, n)) :
    (NewTreeModel paths w h hist).selected = pos ∧
    nodeAt? (NewTreeModel paths w h hist).root pos = some n ∧
    n.path = p0 ∧
    (NewTreeModel paths w h hist).SelectedPath = goTrimPrefix p0 "ROOT/" := by
  obtain ⟨rest, rfl⟩ : ∃ rest, paths = p0 :: rest := by
    cases paths with
    | nil => simp at hp
    | cons a as =>
      simp only [List.head?_cons, Option.some.injEq] at hp
      exact ⟨as, by rw [hp]⟩
  obtain ⟨hat, hpath⟩ := findNode_sound _ _ _ _ hfind
  refine ⟨?_, ?_, hpath, ?_⟩
  · simp [NewTreeModel, initialSelection, hfind]
  · simpa [NewTreeModel] using hat
  · have hsel : (NewTreeModel (p0 :: rest) w h hist).selected = pos := by
      simp [NewTreeModel, initialSelection, hfind]
    have hroot : (NewTreeModel (p0 :: rest) w h hist).root
        = compressTree (buildTree hist (p0 :: rest)) := rfl
    simp only [TreeModel.SelectedPath, hsel, hroot, selectedPath, hat, hpath]

/-- A concrete instance of `rebuild_selects_first_path`: the rebuilt
model for `["a", "b"]` selects the node of the first path `"a"`. -/
theorem rebuild_selects_first_path_witness :
    (NewTreeModel ["a", "b"] 80 20 (fun _ => false)).selected = [0] ∧
    (NewTreeModel ["a", "b"] 80 20 (fun _ => false)).SelectedPath
      = goTrimPrefix "a" "ROOT/" :=
  ⟨(rebuild_selects_first_path ["a", "b"] "a" 80 20 (fun _ => false) rfl [0]
      (.mk "a" "a" true false []) rfl).1,
   (rebuild_selects_first_path ["a", "b"] "a" 80 20 (fun _ => false) rfl [0]
      (.mk "a" "a" true false []) rfl).2.2.2⟩

/- ---------------------------------------------------------------
Accessor equations
--------------------------------------------------------------- -/

@[simp] theorem Node.name_mk (a b : String) (c d : Bool) (e : List Node) :
    (Node.mk a b c d e).name = a := rfl

@[simp] theorem Node.path_mk (a b : String) (c d : Bool) (e : List Node) :
    (Node.mk a b c d e).path = b := rfl

@[simp] theorem Node.isDir_mk (a b : String) (c d : Bool) (e : List Node) :
    (Node.mk a b c d e).isDir = c := rfl

@[simp] theorem Node.isHistory_mk (a b : String) (c d : Bool) (e : List Node) :
    (Node.mk a b c d e).isHistory = d := rfl

@[simp] theorem Node.children_mk (a b : String) (c d : Bool) (e : List Node) :
    (Node.mk a b c d e).children = e := rfl

@[simp] theorem Node.setIsDir_mk (a b : String) (c d x : Bool) (e : List Node) :
    (Node.mk a b c d e).setIsDir x = Node.mk a b x d e := rfl

@[simp] theorem Node.setIsHistory_mk (a b : String) (c d x : Bool) (e : List Node) :
    (Node.mk a b c d e).setIsHistory x = Node.mk a b c x e := rfl

@[simp] theorem Node.setChildren_mk (a b : String) (c d : Bool) (e x : List Node) :
    (Node.mk a b c d e).setChildren x = Node.mk a b c d x := rfl

theorem Node.setIsDir_name (m : Node) (x : Bool) : (m.setIsDir x).name = m.name := by
  cases m; rfl

theorem Node.setIsHistory_name (m : Node) (x : Bool) :
    (m.setIsHistory x).name = m.name := by
  cases m; rfl

theorem Node.setIsDir_path (m : Node) (x : Bool) : (m.setIsDir x).path = m.path := by
  cases m; rfl

theorem Node.setIsHistory_path (m : Node) (x : Bool) :
    (m.setIsHistory x).path = m.path := by
  cases m; rfl

theorem Node.setIsDir_children (m : Node) (x : Bool) :
    (m.setIsDir x).children = m.children := by
  cases m; rfl

theorem Node.setIsHistory_children (m : Node) (x : Bool) :
    (m.setIsHistory x).children = m.children := by
  cases m; rfl

/- ---------------------------------------------------------------
C9: the IsDir flag
--------------------------------------------------------------- -/

/-- Claim C9 is right and the code is wrong: `buildTree` computes
`isDir := i < len(parts)-1` for a new node but then unconditionally
executes `current.IsDir = true` for every visited segment, the final
one included, so every node — the terminal node of an unextended path
too — is marked a directory.  Here the single path `"a"` produces a
terminal leaf `a` with `IsDir = true`, where the claim (and the dead
initialisation) say `false`. -/
theorem terminal_node_marked_dir :
    buildTree (fun _ => false) ["a"] =
      .mk "ROOT" "." true false [.mk "a" "a" true false []] ∧
    (buildTree (fun _ => false) ["a"]).children.map Node.isDir = [true] :=
  ⟨rfl, rfl⟩

theorem insertLoop_name (hist : String → Bool) (q : String) :
    ∀ (parts : List String) (m : Node), (insertLoop hist q m parts).name = m.name := by
  intro parts
  induction parts with
  | nil =>
    intro m
    simp only [insertLoop]
    split
    · exact m.setIsHistory_name true
    · rfl
  | cons s rest ih =>
    intro m
    simp only [insertLoop]
    cases h : m.children.find? (fun c => c.name = s) <;>
      · cases m
        simp

theorem replaceFirstByName_names (s : String) (x : Node) (hx : x.name = s) :
    ∀ (l : List Node),
      (replaceFirstByName s x l).map Node.name = l.map Node.name := by
  intro l
  induction l with
  | nil => rfl
  | cons c cs ih =>
    simp only [replaceFirstByName]
    by_cases h : c.name = s
    · rw [if_pos h]
      simp [hx, h]
    · rw [if_neg h]
      simp [ih]

/-- Inserting a path whose first segment is `s` either reuses an
existing child named `s` or appends a new child named `s` at the end:
the child-name list gains `s` at the end when absent and is otherwise
unchanged. -/
theorem insertLoop_children_names (hist : String → Bool) (q : String) (t : Node)
    (s : String) (rest : List String) :
    (insertLoop hist q t (s :: rest)).children.map Node.name =
      if s ∈ t.children.map Node.name then t.children.map Node.name
      else t.children.map Node.name ++ [s] := by
  cases t with
  | mk a b c d e =>
    simp only [insertLoop]
    cases hfind : (Node.mk a b c d e).children.find? (fun c => c.name = s) with
    | none =>
      have hnot : s ∉ (Node.mk a b c d e).children.map Node.name := by
        intro hmem
        obtain ⟨x, hx, hxs⟩ := List.exists_of_mem_map hmem
        have := List.find?_eq_none.mp hfind x hx
        simp [hxs] at this
      rw [if_neg hnot]
      simp only [Node.setChildren_mk, Node.children_mk, List.map_append]
      congr 1
      simp [insertLoop_name]

    | some c0 =>
      have hc0 : c0.name = s := by
        have := List.find?_some hfind
        simpa using this
      have hmem : s ∈ (Node.mk a b c d e).children.map Node.name := by
        have := List.mem_of_find?_eq_some hfind
        exact List.mem_map.mpr ⟨c0, this, hc0⟩
      rw [if_pos hmem]
      simp only [Node.setChildren_mk, Node.children_mk]
      apply replaceFirstByName_names
      rw [insertLoop_name, Node.setIsDir_name]
      split <;> simp [Node.setIsHistory_name, hc0]

theorem goSplit_go_ne_nil : ∀ (l acc : List Char), goSplit.go l acc ≠ [] := by
  intro l
  induction l with
  | nil => intro acc; simp [goSplit.go]
  | cons c rest ih =>
    intro acc
    simp only [goSplit.go]
    split
    · simp
    · exact ih _

theorem goSplit_ne_nil (s : String) : goSplit s ≠ [] :=
  goSplit_go_ne_nil _ _

/-- Part one of claim C6, generalised over the fold: the child-name
list of the accumulator evolves exactly like the first-occurrence
accumulator of the heads of the processed paths. -/
theorem buildTree_fold_names (hist : String → Bool) :
    ∀ (paths : List String) (t : Node),
      ((paths.foldl (fun r p => insertLoop hist p r (goSplit p)) t).children.map
          Node.name)
        = firstOccurs.go (t.children.map Node.name)
            (paths.map fun p => (goSplit p).headD "") := by
  intro paths
  induction paths with
  | nil => intro t; rfl
  | cons p rest ih =>
    intro t
    obtain ⟨s, tail, hsp⟩ := List.exists_cons_of_ne_nil (goSplit_ne_nil p)
    simp only [List.foldl_cons, List.map_cons, firstOccurs.go, hsp, List.headD_cons]
    rw [ih, insertLoop_children_names hist p t s tail]
    split <;> rfl

/-- A layout pass at `depth` never touches row counters of shallower
depths. -/
theorem layoutAssignF_ys_lt : ∀ (fuel : Nat) (sel p : List Nat) (n : Node)
    (depth : Nat) (st : LState) (d : Nat), d < depth →
    (layoutAssignF fuel sel p n depth st).ys d = st.ys d := by
  intro fuel
  induction fuel with
  | zero => intro sel p n depth st d hd; rfl
  | succ fuel ih =>
    intro sel p n depth st d hd
    simp only [layoutAssignF]
    have hfold : ∀ (l : List (Nat × Node)) (st' : LState) (q : List Nat),
        (l.foldl (fun acc ic =>
            layoutAssignF fuel sel (q ++ [ic.1]) ic.2 (depth + 1) acc) st').ys d
          = st'.ys d := by
      intro l
      induction l with
      | nil => intro st' q; rfl
      | cons ic rest ihl =>
        intro st' q
        simp only [List.foldl_cons]
        rw [ihl, ih]
        omega
    rw [hfold]
    simp [updateFn]
    omega

/-- A layout pass only appends to the assignment list. -/
theorem layoutAssignF_assigns_mono : ∀ (fuel : Nat) (sel p : List Nat) (n : Node)
    (depth : Nat) (st : LState),
    ∃ suf, (layoutAssignF fuel sel p n depth st).assigns = st.assigns ++ suf := by
  intro fuel
  induction fuel with
  | zero => intro sel p n depth st; exact ⟨[], by simp [layoutAssignF]⟩
  | succ fuel ih =>
    intro sel p n depth st
    simp only [layoutAssignF]
    have hfold : ∀ (l : List (Nat × Node)) (st' : LState) (q : List Nat),
        ∃ suf, (l.foldl (fun acc ic =>
            layoutAssignF fuel sel (q ++ [ic.1]) ic.2 (depth + 1) acc) st').assigns
          = st'.assigns ++ suf := by
      intro l
      induction l with
      | nil => intro st' q; exact ⟨[], by simp⟩
      | cons ic rest ihl =>
        intro st' q
        simp only [List.foldl_cons]
        obtain ⟨s1, hs1⟩ := ih sel (q ++ [ic.1]) ic.2 (depth + 1) st'
        obtain ⟨s2, hs2⟩ := ihl (layoutAssignF fuel sel (q ++ [ic.1]) ic.2 (depth + 1) st') q
        exact ⟨s1 ++ s2, by rw [hs2, hs1, List.append_assoc]⟩
    obtain ⟨suf, hsuf⟩ := hfold (visibleChildrenIdx sel p n) _ p
    exact ⟨(p, depth, st.ys depth) :: suf, by rw [hsuf]; simp⟩

/-- With fuel left, a layout pass at `depth` bumps this depth's row
counter by exactly one (its own row) — deeper recursion does not touch
it. -/
theorem layoutAssignF_ys_self (fuel : Nat) (sel p : List Nat) (n : Node)
    (depth : Nat) (st : LState) (hfuel : 1 ≤ fuel) :
    (layoutAssignF fuel sel p n depth st).ys depth = st.ys depth + 1 := by
  cases fuel with
  | zero => omega
  | succ fuel =>
    simp only [layoutAssignF]
    have hfold : ∀ (l : List (Nat × Node)) (st' : LState) (q : List Nat),
        (l.foldl (fun acc ic =>
            layoutAssignF fuel sel (q ++ [ic.1]) ic.2 (depth + 1) acc) st').ys depth
          = st'.ys depth := by
      intro l
      induction l with
      | nil => intro st' q; rfl
      | cons ic rest ihl =>
        intro st' q
        simp only [List.foldl_cons]
        rw [ihl, layoutAssignF_ys_lt]
        omega
    rw [hfold]
    simp [updateFn]

theorem layout_foldl_assigns_mono (fuel : Nat) (sel : List Nat) (depth : Nat) :
    ∀ (l : List (Nat × Node)) (st : LState) (q : List Nat),
      ∃ suf, (l.foldl (fun acc ic =>
          layoutAssignF fuel sel (q ++ [ic.1]) ic.2 depth acc) st).assigns
        = st.assigns ++ suf := by
  intro l
  induction l with
  | nil => intro st q; exact ⟨[], by simp⟩
  | cons ic rest ih =>
    intro st q
    simp only [List.foldl_cons]
    obtain ⟨s1, hs1⟩ := layoutAssignF_assigns_mono fuel sel (q ++ [ic.1]) ic.2 depth st
    obtain ⟨s2, hs2⟩ := ih (layoutAssignF fuel sel (q ++ [ic.1]) ic.2 depth st) q
    exact ⟨s1 ++ s2, by rw [hs2, hs1, List.append_assoc]⟩

/-- With fuel left, a layout pass records this node's own coordinate
assignment: position, its depth as X, and the counter value as Y. -/
theorem layoutAssignF_assigns_self (fuel : Nat) (sel p : List Nat) (n : Node)
    (depth : Nat) (st : LState) (hfuel : 1 ≤ fuel) :
    (p, depth, st.ys depth) ∈ (layoutAssignF fuel sel p n depth st).assigns := by
  cases fuel with
  | zero => omega
  | succ f =>
    simp only [layoutAssignF]
    obtain ⟨suf, hsuf⟩ := layout_foldl_assigns_mono f sel (depth + 1)
      (visibleChildrenIdx sel p n) _ p
    rw [hsuf]
    simp

/-- Folding a layout pass over a child list assigns the `j`-th child of
the list the `j`-th row below the counter's starting value: rows follow
child-list order. -/
theorem layout_fold_rows (sel : List Nat) (fuel : Nat) (hfuel : 1 ≤ fuel)
    (q : List Nat) (depth : Nat) :
    ∀ (l : List (Nat × Node)) (st : LState) (j i : Nat) (c : Node),
      l[j]? = some (i, c) →
      (q ++ [i], depth + 1, st.ys (depth + 1) + j) ∈
        (l.foldl (fun acc ic =>
            layoutAssignF fuel sel (q ++ [ic.1]) ic.2 (depth + 1) acc) st).assigns := by
  intro l
  induction l with
  | nil => intro st j i c h; simp at h
  | cons ic0 rest ih =>
    intro st j i c h
    simp only [List.foldl_cons]
    cases j with
    | zero =>
      have hic : ic0 = (i, c) := by simpa using h
      subst hic
      obtain ⟨suf, hsuf⟩ := layout_foldl_assigns_mono fuel sel (depth + 1) rest
        (layoutAssignF fuel sel (q ++ [(i, c).1]) (i, c).2 (depth + 1) st) q
      rw [hsuf]
      refine List.mem_append.mpr (Or.inl ?_)
      simpa using layoutAssignF_assigns_self fuel sel (q ++ [i]) c (depth + 1) st hfuel
    | succ k =>
      have hk : rest[k]? = some (i, c) := by simpa using h
      have := ih (layoutAssignF fuel sel (q ++ [ic0.1]) ic0.2 (depth + 1) st) k i c hk
      rw [layoutAssignF_ys_self fuel sel (q ++ [ic0.1]) ic0.2 (depth + 1) st hfuel] at this
      have harith : st.ys (depth + 1) + 1 + k = st.ys (depth + 1) + (k + 1) := by omega
      rw [harith] at this
      exact this

theorem visibleChildrenIdx_nil_children (sel p : List Nat) (n : Node)
    (h : n.children = []) : visibleChildrenIdx sel p n = [] := by
  unfold visibleChildrenIdx
  split
  · rfl
  · split
    · simp [h]
    · split
      · cases hs : sel[p.length]? with
        | none => simp
        | some i => simp [h]
      · simp [h]

/-- A layout pass with enough fuel assigns the `j`-th visible child of
the node it starts at the `j`-th row (below the incoming counter) of
the next column: sibling rows follow child-list order. -/
theorem layoutAssignF_child_rows (fuel : Nat) (sel p : List Nat) (n : Node)
    (depth : Nat) (st : LState) (hfuel : 2 ≤ fuel) (j i : Nat) (c : Node)
    (h : (visibleChildrenIdx sel p n)[j]? = some (i, c)) :
    (p ++ [i], depth + 1, st.ys (depth + 1) + j)
      ∈ (layoutAssignF fuel sel p n depth st).assigns := by
  cases fuel with
  | zero => omega
  | succ f =>
    have key : ∀ st1 : LState, st1.ys (depth + 1) = st.ys (depth + 1) →
        (p ++ [i], depth + 1, st.ys (depth + 1) + j)
          ∈ ((visibleChildrenIdx sel p n).foldl
              (fun acc ic =>
                layoutAssignF f sel (p ++ [ic.1]) ic.2 (depth + 1) acc) st1).assigns := by
      intro st1 h1
      have := layout_fold_rows sel f (by omega) p depth
        (visibleChildrenIdx sel p n) st1 j i c h
      rw [h1] at this
      exact this
    simp only [layoutAssignF]
    apply key
    simp only [updateFn]
    rw [if_neg (by omega)]

/-- Claim C6: (1) the root's child list is in first-occurrence order of
the paths' head segments — a new segment is appended at the end, an
existing one reuses its node — and (2) the layout pass assigns the
`j`-th visible child of the root row `j` of column 1 (column 0 after
the display shift), so the on-screen row order of the top level is the
input order, never alphabetical. -/
theorem order_preserved (hist : String → Bool) (paths : List String) :
    ((buildTree hist paths).children.map Node.name
        = firstOccurs (paths.map fun p => (goSplit p).headD "")) ∧
    (∀ (root : Node) (sel : List Nat) (j i : Nat) (c : Node),
        (visibleChildrenIdx sel [] root)[j]? = some (i, c) →
        ([i], 1, j) ∈ (layoutRoot sel root).assigns) := by
  constructor
  · exact buildTree_fold_names hist paths (.mk "ROOT" "." true false [])
  · intro root sel j i c h
    have hchild : root.children ≠ [] := by
      intro hnil
      rw [visibleChildrenIdx_nil_children sel [] root hnil] at h
      simp at h
    have hsize : 2 ≤ root.size := by
      cases root with
      | mk a b cc d e =>
        cases e with
        | nil => simp at hchild
        | cons c0 cs =>
          have := Node.size_pos c0
          simp only [Node.size, Node.size.sizeList]
          omega
    have := layoutAssignF_child_rows root.size sel [] root 0
      ⟨fun _ => 0, fun _ => 0, []⟩ hsize j i c h
    simpa using this

/-- A concrete instance of `order_preserved`: with input order
`b` before `a`, the top row holds `b` and the second row `a`. -/
theorem order_preserved_witness :
    ((buildTree (fun _ => false) ["b", "a"]).children.map Node.name = ["b", "a"]) ∧
    ([0], 1, 0) ∈ (layoutRoot [0]
      (compressTree (buildTree (fun _ => false) ["b", "a"]))).assigns ∧
    ([1], 1, 1) ∈ (layoutRoot [0]
      (compressTree (buildTree (fun _ => false) ["b", "a"]))).assigns :=
  ⟨(order_preserved (fun _ => false) ["b", "a"]).1,
   (order_preserved (fun _ => false) ["b", "a"]).2
     (compressTree (buildTree (fun _ => false) ["b", "a"])) [0] 0 0
     (.mk "b" "b" true false []) rfl,
   (order_preserved (fun _ => false) ["b", "a"]).2
     (compressTree (buildTree (fun _ => false) ["b", "a"])) [0] 1 1
     (.mk "a" "a" true false []) rfl⟩

theorem strMk_append (a b : List Char) :
    String.mk a ++ String.mk b = String.mk (a ++ b) := rfl

theorem strToList_mk (a : List Char) : (String.mk a).toList = a := rfl

theorem strToList_append (a b : String) : (a ++ b).toList = a.toList ++ b.toList := by
  cases a; cases b; rfl

theorem strToList_eq_nil (s : String) : s.toList = [] ↔ s = "" := by
  cases s with
  | mk data =>
    constructor
    · intro h
      have hd : data = [] := h
      subst hd
      rfl
    · intro h
      have : (String.mk data).toList = ("" : String).toList := by rw [h]
      simpa using this

theorem goSplit_go_append (ys : List Char) : ∀ (xs acc : List Char),
    goSplit.go (xs ++ '/' :: ys) acc = goSplit.go xs acc ++ goSplit.go ys [] := by
  intro xs
  induction xs with
  | nil => intro acc; simp [goSplit.go]
  | cons c rest ih =>
    intro acc
    simp only [List.cons_append, goSplit.go]
    split
    · congr 1
      exact ih []
    · exact ih _

theorem goSplit_go_no_sep : ∀ (l acc : List Char), '/' ∉ l →
    goSplit.go l acc = [String.mk (acc.reverse ++ l)] := by
  intro l
  induction l with
  | nil => intro acc h; simp [goSplit.go]
  | cons c rest ih =>
    intro acc h
    simp only [goSplit.go]
    rw [if_neg (by intro hc; exact h (by simp [hc]))]
    rw [ih _ (by intro hr; exact h (by simp [hr]))]
    simp

theorem goSplit_no_sep (s : String) (h : '/' ∉ s.toList) : goSplit s = [s] := by
  unfold goSplit
  rw [goSplit_go_no_sep _ _ h]
  cases s with
  | mk data => rfl

theorem joinSegs_go : ∀ (l acc : List Char),
    joinSegs (goSplit.go l acc) = String.mk (acc.reverse ++ l) := by
  intro l
  induction l with
  | nil => intro acc; simp [goSplit.go, joinSegs]
  | cons c rest ih =>
    intro acc
    simp only [goSplit.go]
    split
    · next hc =>
      subst hc
      cases hxs : goSplit.go rest [] with
      | nil => exact absurd hxs (goSplit_go_ne_nil rest [])
      | cons y ys =>
        have hj : joinSegs (String.mk acc.reverse :: y :: ys)
            = String.mk acc.reverse ++ "/" ++ joinSegs (y :: ys) := rfl
        rw [hj, ← hxs, ih]
        show String.mk acc.reverse ++ String.mk ['/'] ++ String.mk ([].reverse ++ rest) = _
        rw [strMk_append, strMk_append]
        simp
    · rw [ih]
      simp

theorem joinSegs_goSplit (s : String) : joinSegs (goSplit s) = s := by
  unfold goSplit
  rw [joinSegs_go]
  cases s with
  | mk data => rfl

theorem goSplit_joinSegs : ∀ (segs : List String), segs ≠ [] →
    (∀ s ∈ segs, '/' ∉ s.toList) → goSplit (joinSegs segs) = segs := by
  intro segs
  induction segs with
  | nil => intro h; cases h rfl
  | cons s rest ih =>
    intro _ hsep
    cases rest with
    | nil =>
      show goSplit s = [s]
      exact goSplit_no_sep s (hsep s (by simp))
    | cons s2 r2 =>
      have hj : joinSegs (s :: s2 :: r2) = s ++ "/" ++ joinSegs (s2 :: r2) := rfl
      rw [hj]
      have htl : (s ++ "/" ++ joinSegs (s2 :: r2)).toList
          = s.toList ++ '/' :: (joinSegs (s2 :: r2)).toList := by
        rw [strToList_append, strToList_append]
        simp
      show goSplit.go (s ++ "/" ++ joinSegs (s2 :: r2)).toList [] = s :: s2 :: r2
      rw [htl, goSplit_go_append]
      have h1 : goSplit.go s.toList [] = [s] := goSplit_no_sep s (hsep s (by simp))
      have h2 : goSplit.go (joinSegs (s2 :: r2)).toList [] = s2 :: r2 := by
        have := ih (by simp) (fun x hx => hsep x (by simp [hx]))
        simpa [goSplit] using this
      rw [h1, h2]
      rfl

theorem foldl_cleanStep (rooted : Bool) : ∀ (segs acc : List String),
    (∀ s ∈ segs, s ≠ "..") →
    segs.foldl (cleanStep rooted) acc = segs.reverse ++ acc := by
  intro segs
  induction segs with
  | nil => intro acc h; simp
  | cons s rest ih =>
    intro acc h
    simp only [List.foldl_cons, List.reverse_cons]
    have hstep : cleanStep rooted acc s = s :: acc := by
      unfold cleanStep
      rw [if_neg (h s (by simp))]
    rw [hstep, ih _ (fun x hx => h x (by simp [hx]))]
    simp

theorem strAppend_ne_empty_left (a b : String) (ha : a ≠ "") : a ++ b ≠ "" := by
  intro h
  apply ha
  rw [← strToList_eq_nil] at h ⊢
  rw [strToList_append] at h
  exact List.append_eq_nil.mp h |>.1

theorem joinSegs_ne_empty : ∀ (segs : List String), segs ≠ [] →
    (∀ s ∈ segs, s ≠ "") → joinSegs segs ≠ "" := by
  intro segs
  induction segs with
  | nil => intro h; cases h rfl
  | cons s rest ih =>
    intro _ hs
    cases rest with
    | nil => exact hs s (by simp)
    | cons s2 r2 =>
      show s ++ "/" ++ joinSegs (s2 :: r2) ≠ ""
      exact strAppend_ne_empty_left _ _
        (strAppend_ne_empty_left _ _ (hs s (by simp)))

theorem joinSegs_head_char : ∀ (segs : List String) (s1 : String), segs = s1 :: segs.tail →
    s1 ≠ "" → (joinSegs segs).toList.headD ' ' = s1.toList.headD ' ' := by
  intro segs s1 hseg hs1
  cases segs with
  | nil => simp at hseg
  | cons a rest =>
    have ha : a = s1 := by simpa using congrArg (List.headD · "") hseg
    subst ha
    cases rest with
    | nil => rfl
    | cons s2 r2 =>
      show (a ++ "/" ++ joinSegs (s2 :: r2)).toList.headD ' ' = _
      rw [strToList_append, strToList_append]
      have : a.toList ≠ [] := by
        intro h
        exact hs1 ((strToList_eq_nil a).mp h)
      cases h : a.toList with
      | nil => exact absurd h this
      | cons c cs => simp [h]

/-- `path.Clean` on a string whose split, after dropping empty and `.`
elements, is a non-empty `..`-free relative element list: the result is
exactly those elements re-joined. -/
theorem goClean_segs (str : String) (segs : List String)
    (hne : str ≠ "")
    (hhead : ¬ (str.toList.headD ' ' = '/'))
    (hsplit : (goSplit str).filter (fun c => ¬ (c = "" ∨ c = ".")) = segs)
    (hdd : ∀ s ∈ segs, s ≠ "..")
    (hne2 : joinSegs segs ≠ "") :
    goClean str = joinSegs segs := by
  unfold goClean
  rw [if_neg hne]
  simp only [hsplit, hhead, decide_eq_false_iff_not.mpr hhead, Bool.false_eq_true, if_false]
  rw [foldl_cleanStep _ _ _ hdd]
  simp only [List.append_nil, List.reverse_reverse]
  rw [if_neg hne2]

theorem filter_clean_id (segs : List String) (h : ∀ s ∈ segs, CleanSeg s) :
    segs.filter (fun c => ¬ (c = "" ∨ c = ".")) = segs := by
  apply List.filter_eq_self.mpr
  intro s hs
  obtain ⟨h1, h2, _, _⟩ := h s hs
  simp [h1, h2]

theorem strHead_mem {l : List Char} (h : l ≠ []) : l.headD ' ' ∈ l := by
  cases l with
  | nil => cases h rfl
  | cons c cs => simp

/-- `filepath.Join(".", s) = s` for a clean segment. -/
theorem goJoin_dot (s : String) (hs : CleanSeg s) : goJoin "." s = s := by
  obtain ⟨h1, h2, h3, h4⟩ := hs
  unfold goJoin
  rw [if_neg (by decide), if_neg h1]
  have hres := goClean_segs ("." ++ "/" ++ s) [s] ?_ ?_ ?_ ?_ ?_
  · rw [hres]; rfl
  · exact strAppend_ne_empty_left _ _ (strAppend_ne_empty_left _ _ (by decide))
  · rw [strToList_append, strToList_append]
    intro hcontra
    have hdot : (".".toList ++ "/".toList ++ s.toList).headD ' ' = '.' := rfl
    rw [hdot] at hcontra
    exact absurd hcontra (by decide)
  · have hT : ("." ++ "/" ++ s).toList = ['.'] ++ '/' :: s.toList := by
      rw [strToList_append, strToList_append]; rfl
    unfold goSplit
    rw [hT, goSplit_go_append, goSplit_go_no_sep s.toList [] h4]
    have hs2 : String.mk ([].reverse ++ s.toList) = s := by cases s; rfl
    have hdot : goSplit.go ['.'] [] = ["."] := rfl
    rw [hdot, hs2]
    simp [h1, h2]
  · intro x hx
    rw [List.mem_singleton] at hx
    subst hx
    exact h3
  · exact h1

/-- `filepath.Join` extends a cleanly joined relative path by one clean
segment. -/
theorem goJoin_cleanPath (segs : List String) (s : String)
    (hsegs : segs ≠ []) (hcs : ∀ x ∈ segs, CleanSeg x) (hs : CleanSeg s) :
    goJoin (joinSegs segs) s = joinSegs (segs ++ [s]) := by
  obtain ⟨hs1, hs2, hs3, hs4⟩ := hs
  have hjne : joinSegs segs ≠ "" :=
    joinSegs_ne_empty segs hsegs (fun x hx => (hcs x hx).1)
  unfold goJoin
  rw [if_neg hjne, if_neg hs1]
  obtain ⟨s1, rest, hs1r⟩ := List.exists_cons_of_ne_nil hsegs
  have hres := goClean_segs (joinSegs segs ++ "/" ++ s) (segs ++ [s]) ?_ ?_ ?_ ?_ ?_
  · exact hres
  · exact strAppend_ne_empty_left _ _ (strAppend_ne_empty_left _ _ hjne)
  · rw [strToList_append, strToList_append]
    have hs1c : CleanSeg s1 := hcs s1 (by rw [hs1r]; simp)
    have hhd : (joinSegs segs).toList.headD ' ' = s1.toList.headD ' ' := by
      apply joinSegs_head_char segs s1 _ hs1c.1
      rw [hs1r]; rfl
    have hne1 : (joinSegs segs).toList ≠ [] := by
      intro h
      exact hjne ((strToList_eq_nil _).mp h)
    have hha : ∀ (l1 l2 : List Char) (d : Char), l1 ≠ [] →
        (l1 ++ l2).headD d = l1.headD d := by
      intro l1 l2 d h
      cases l1 with
      | nil => cases h rfl
      | cons c cs => rfl
    intro hcontra
    rw [List.append_assoc, hha _ _ _ hne1, hhd] at hcontra
    exact hs1c.2.2.2 (hcontra ▸ strHead_mem (by
      intro h
      exact hs1c.1 ((strToList_eq_nil _).mp h)))
  · have hT : (joinSegs segs ++ "/" ++ s).toList
        = (joinSegs segs).toList ++ '/' :: s.toList := by
      rw [strToList_append, strToList_append]
      simp
    unfold goSplit
    rw [hT, goSplit_go_append]
    have h1 : goSplit.go (joinSegs segs).toList [] = segs := by
      have := goSplit_joinSegs segs hsegs (fun x hx => (hcs x hx).2.2.2)
      simpa [goSplit] using this
    have h2 : goSplit.go s.toList [] = [s] := by
      rw [goSplit_go_no_sep s.toList [] hs4]
      cases s; rfl
    rw [h1, h2, filter_clean_id]
    intro x hx
    rcases List.mem_append.mp hx with hx | hx
    · exact hcs x hx
    · rw [List.mem_singleton] at hx
      subst hx
      exact ⟨hs1, hs2, hs3, hs4⟩
  · intro x hx
    rcases List.mem_append.mp hx with hx | hx
    · exact (hcs x hx).2.2.1
    · rw [List.mem_singleton] at hx
      subst hx
      exact hs3
  · apply joinSegs_ne_empty _ (by simp)
    intro x hx
    rcases List.mem_append.mp hx with hx | hx
    · exact (hcs x hx).1
    · rw [List.mem_singleton] at hx
      subst hx
      exact hs1

theorem pathAcc_go : ∀ (rest done : List String), done ≠ [] →
    (∀ s ∈ done, CleanSeg s) → (∀ s ∈ rest, CleanSeg s) →
    List.foldl goJoin (joinSegs done) rest = joinSegs (done ++ rest) := by
  intro rest
  induction rest with
  | nil => intro done h1 h2 h3; simp
  | cons s0 r ih =>
    intro done h1 h2 h3
    simp only [List.foldl_cons]
    rw [goJoin_cleanPath done s0 h1 h2 (h3 s0 (by simp))]
    rw [ih (done ++ [s0]) (by simp) ?_ (fun y hy => h3 y (by simp [hy]))]
    · simp
    · intro y hy
      rcases List.mem_append.mp hy with hy | hy
      · exact h2 y hy
      · rw [List.mem_singleton] at hy
        rw [hy]
        exact h3 s0 (by simp)

/-- Walking segment joins from the synthetic root path `"."` along a
clean segment list lands exactly on the re-joined path. -/
theorem pathAcc_dot (segs : List String) (hne : segs ≠ [])
    (hc : ∀ s ∈ segs, CleanSeg s) : pathAcc "." segs = joinSegs segs := by
  obtain ⟨s1, rest, rfl⟩ := List.exists_cons_of_ne_nil hne
  unfold pathAcc
  simp only [List.foldl_cons]
  rw [goJoin_dot s1 (hc s1 (by simp))]
  exact pathAcc_go rest [s1] (by simp)
    (by
      intro y hy
      rw [List.mem_singleton] at hy
      rw [hy]
      exact hc s1 (by simp))
    (fun y hy => hc y (by simp [hy]))

theorem chainNode?_congr (m m' : Node) (h : m.children = m'.children) :
    ∀ segs, segs ≠ [] → chainNode? m segs = chainNode? m' segs := by
  intro segs h0
  cases segs with
  | nil => cases h0 rfl
  | cons s rest => simp only [chainNode?, h]

theorem insertLoop_path (hist : String → Bool) (q : String) :
    ∀ (parts : List String) (m : Node), (insertLoop hist q m parts).path = m.path := by
  intro parts
  induction parts with
  | nil =>
    intro m
    simp only [insertLoop]
    split
    · exact m.setIsHistory_path true
    · rfl
  | cons s rest ih =>
    intro m
    simp only [insertLoop]
    cases h : m.children.find? (fun c => c.name = s) <;>
      · cases m
        simp

theorem insertLoop_cons_children (hist : String → Bool) (q : String) (m : Node)
    (s : String) (rest : List String) :
    (insertLoop hist q m (s :: rest)).children =
      match m.children.find? (fun c => c.name = s) with
      | none =>
          m.children ++
            [insertLoop hist q
              ((Node.mk s (goJoin m.path s) (decide (rest ≠ []))
                (hist q || hist (goJoin m.path s)) []).setIsDir true) rest]
      | some c =>
          replaceFirstByName s
            (insertLoop hist q
              ((if hist q || hist c.path then c.setIsHistory true else c).setIsDir true)
              rest)
            m.children := by
  cases m with
  | mk a b c d e =>
    simp only [insertLoop]
    cases h : (Node.mk a b c d e).children.find? (fun c => c.name = s) <;> simp [h]

theorem find?_name_append (l : List Node) (x : Node) (s : String) :
    (l ++ [x]).find? (fun c => c.name = s) =
      match l.find? (fun c => c.name = s) with
      | some c => some c
      | none => if x.name = s then some x else none := by
  induction l with
  | nil => by_cases h : x.name = s <;> simp [List.find?, h]
  | cons c cs ih =>
    by_cases h : c.name = s
    · simp [List.cons_append, List.find?, decide_eq_true h]
    · simp only [List.cons_append, List.find?, decide_eq_false h]
      exact ih

theorem find?_replaceFirst_eq (s : String) (x : Node) (hx : x.name = s) :
    ∀ (l : List Node) (c : Node), l.find? (fun c => c.name = s) = some c →
      (replaceFirstByName s x l).find? (fun c => c.name = s) = some x := by
  intro l
  induction l with
  | nil => intro c h; simp [List.find?] at h
  | cons c0 cs ih =>
    intro c h
    by_cases h0 : c0.name = s
    · simp [replaceFirstByName, h0, List.find?, hx]
    · rw [List.find?] at h
      simp only [decide_eq_false h0] at h
      simp only [replaceFirstByName, if_neg h0]
      rw [List.find?]
      simp only [decide_eq_false h0]
      exact ih c h

theorem find?_replaceFirst_ne (s t : String) (x : Node) (hst : t ≠ s)
    (hx : x.name = s) : ∀ (l : List Node),
      (replaceFirstByName s x l).find? (fun c => c.name = t)
        = l.find? (fun c => c.name = t) := by
  intro l
  induction l with
  | nil => rfl
  | cons c0 cs ih =>
    by_cases h0 : c0.name = s
    · have hxt : decide (x.name = t) = false :=
        decide_eq_false (by rw [hx]; exact fun hc => hst hc.symm)
      have hct : decide (c0.name = t) = false :=
        decide_eq_false (by rw [h0]; exact fun hc => hst hc.symm)
      simp only [replaceFirstByName, if_pos h0, List.find?, hxt, hct]
    · simp only [replaceFirstByName, if_neg h0, List.find?]
      by_cases hc0t : c0.name = t
      · simp [decide_eq_true hc0t]
      · simp only [decide_eq_false hc0t]
        exact ih

theorem chainNode?_cons (t : Node) (s : String) (rest : List String) :
    chainNode? t (s :: rest) =
      match t.children.find? (fun c => c.name = s) with
      | some c => chainNode? c rest
      | none => none := rfl

theorem flagged_name (c : Node) (b : Bool) :
    ((if b = true then c.setIsHistory true else c).setIsDir true).name = c.name := by
  split <;> simp [Node.setIsDir_name, Node.setIsHistory_name]

theorem flagged_children (c : Node) (b : Bool) :
    ((if b = true then c.setIsHistory true else c).setIsDir true).children
      = c.children := by
  split <;> simp [Node.setIsDir_children, Node.setIsHistory_children]

theorem flagged_path (c : Node) (b : Bool) :
    ((if b = true then c.setIsHistory true else c).setIsDir true).path = c.path := by
  split <;> simp [Node.setIsDir_path, Node.setIsHistory_path]

/-- Inserting a path never removes an existing name chain. -/
theorem insertLoop_keeps_chain (hist : String → Bool) (q : String) :
    ∀ (qparts : List String) (t : Node) (segs : List String),
      (chainNode? t segs).isSome →
      (chainNode? (insertLoop hist q t qparts) segs).isSome := by
  intro qparts
  induction qparts with
  | nil =>
    intro t segs h
    simp only [insertLoop]
    split
    · cases segs with
      | nil => simp [chainNode?]
      | cons s rest =>
        rw [chainNode?_congr (t.setIsHistory true) t (t.setIsHistory_children true)
          _ (by simp)]
        exact h
    · exact h
  | cons qs qrest ih =>
    intro t segs h
    cases segs with
    | nil => simp [chainNode?]
    | cons s srest =>
      rw [chainNode?_cons] at h
      rw [chainNode?_cons, insertLoop_cons_children]
      cases hfind : t.children.find? (fun c => c.name = qs) with
      | none =>
        simp only [find?_name_append]
        cases hs : t.children.find? (fun c => c.name = s) with
        | some c =>
          rw [hs] at h
          simpa using h
        | none =>
          rw [hs] at h
          simp at h
      | some c =>
        have hcname : c.name = qs := by
          have := List.find?_some hfind
          simpa using this
        have hc2name :
            (insertLoop hist q
              ((if hist q || hist c.path then c.setIsHistory true else c).setIsDir true)
              qrest).name = qs := by
          rw [insertLoop_name, flagged_name, hcname]
        by_cases hsq : s = qs
        · subst hsq
          rw [find?_replaceFirst_eq s _ hc2name t.children c hfind]
          rw [hfind] at h
          simp only []
          apply ih
          cases srest with
          | nil => simp [chainNode?]
          | cons s2 r2 =>
            rw [chainNode?_congr _ c (flagged_children c _) _ (by simp)]
            exact h
        · rw [find?_replaceFirst_ne qs s _ hsq hc2name t.children]
          cases hs : t.children.find? (fun c => c.name = s) with
          | some c3 =>
            rw [hs] at h
            simpa using h
          | none =>
            rw [hs] at h
            simp at h

/-- After inserting a path, the full chain of its segments exists. -/
theorem insertLoop_self_chain (hist : String → Bool) (q : String) :
    ∀ (qparts : List String) (t : Node),
      (chainNode? (insertLoop hist q t qparts) qparts).isSome := by
  intro qparts
  induction qparts with
  | nil => intro t; simp [chainNode?]
  | cons qs qrest ih =>
    intro t
    rw [chainNode?_cons, insertLoop_cons_children]
    cases hfind : t.children.find? (fun c => c.name = qs) with
    | none =>
      simp only [find?_name_append, hfind]
      have hname :
          (insertLoop hist q
            ((Node.mk qs (goJoin t.path qs) (decide (qrest ≠ []))
              (hist q || hist (goJoin t.path qs)) []).setIsDir true) qrest).name
          = qs := by
        rw [insertLoop_name]
        simp
      rw [if_pos hname]
      exact ih _
    | some c =>
      have hcname : c.name = qs := by simpa using List.find?_some hfind
      have hc2name :
          (insertLoop hist q
            ((if hist q || hist c.path then c.setIsHistory true else c).setIsDir true)
            qrest).name = qs := by
        rw [insertLoop_name, flagged_name, hcname]
      rw [find?_replaceFirst_eq qs _ hc2name t.children c hfind]
      exact ih _

/-- Inserting a path whose segments do not properly extend `segs` keeps
the node at the end of chain `segs` (when it exists) childless. -/
theorem insertLoop_keeps_leaf (hist : String → Bool) (q : String) :
    ∀ (qparts segs : List String) (t : Node),
      ¬(segs <+: qparts ∧ segs ≠ qparts) →
      (∀ n, chainNode? t segs = some n → n.children = []) →
      ∀ n, chainNode? (insertLoop hist q t qparts) segs = some n →
        n.children = [] := by
  intro qparts
  induction qparts with
  | nil =>
    intro segs t hcond hleaf n hchain
    simp only [insertLoop] at hchain
    split at hchain
    · cases segs with
      | nil =>
        simp only [chainNode?, Option.some.injEq] at hchain
        rw [← hchain, t.setIsHistory_children true]
        exact hleaf t rfl
      | cons s rest =>
        rw [chainNode?_congr _ t (t.setIsHistory_children true) _ (by simp)] at hchain
        exact hleaf n hchain
    · exact hleaf n hchain
  | cons qs qrest ih =>
    intro segs t hcond hleaf n hchain
    cases segs with
    | nil => exact absurd ⟨⟨qs :: qrest, rfl⟩, by simp⟩ hcond
    | cons s srest =>
      have hcond' : s = qs → ¬(srest <+: qrest ∧ srest ≠ qrest) := by
        intro hsq hc
        apply hcond
        subst hsq
        exact ⟨List.cons_prefix_cons.mpr ⟨rfl, hc.1⟩, by
          intro hcontra
          exact hc.2 (by injection hcontra)⟩
      rw [chainNode?_cons, insertLoop_cons_children] at hchain
      cases hfind : t.children.find? (fun c => c.name = qs) with
      | none =>
        rw [hfind] at hchain
        simp only [find?_name_append] at hchain
        cases hs : t.children.find? (fun c => c.name = s) with
        | some c =>
          rw [hs] at hchain
          exact hleaf n (by rw [chainNode?_cons, hs]; exact hchain)
        | none =>
          rw [hs] at hchain
          have hname :
              (insertLoop hist q
                ((Node.mk qs (goJoin t.path qs) (decide (qrest ≠ []))
                  (hist q || hist (goJoin t.path qs)) []).setIsDir true) qrest).name
              = qs := by
            rw [insertLoop_name]
            simp
          by_cases hsq : s = qs
          · subst hsq
            rw [if_pos hname] at hchain
            refine ih srest _ (hcond' rfl) ?_ n hchain
            intro m hm
            cases srest with
            | nil =>
              simp only [chainNode?, Option.some.injEq] at hm
              rw [← hm]
              simp
            | cons s2 r2 =>
              rw [chainNode?_cons] at hm
              simp [List.find?] at hm
          · rw [if_neg (by rw [hname]; exact fun hcontra => hsq hcontra.symm)] at hchain
            simp at hchain
      | some c =>
        rw [hfind] at hchain
        have hcname : c.name = qs := by simpa using List.find?_some hfind
        have hc2name :
            (insertLoop hist q
              ((if hist q || hist c.path then c.setIsHistory true else c).setIsDir true)
              qrest).name = qs := by
          rw [insertLoop_name, flagged_name, hcname]
        by_cases hsq : s = qs
        · subst hsq
          rw [find?_replaceFirst_eq s _ hc2name t.children c hfind] at hchain
          refine ih srest _ (hcond' rfl) ?_ n hchain
          intro m hm
          cases srest with
          | nil =>
            simp only [chainNode?, Option.some.injEq] at hm
            rw [← hm, flagged_children]
            exact hleaf c (by rw [chainNode?_cons, hfind]; rfl)
          | cons s2 r2 =>
            rw [chainNode?_congr _ c (flagged_children c _) _ (by simp)] at hm
            exact hleaf m (by rw [chainNode?_cons, hfind]; exact hm)
        · rw [find?_replaceFirst_ne qs s _ hsq hc2name t.children] at hchain
          exact hleaf n (by rw [chainNode?_cons]; exact hchain)

theorem pathAcc_cons (base s : String) (rest : List String) :
    pathAcc base (s :: rest) = pathAcc (goJoin base s) rest := rfl

theorem pathInvRel_preserved (hist : String → Bool) (q : String) :
    ∀ (qparts : List String) (t : Node), (∀ s ∈ qparts, CleanSeg s) →
      PathInvRel t → PathInvRel (insertLoop hist q t qparts) := by
  intro qparts
  induction qparts with
  | nil =>
    intro t hclean hinv segs n hsegs hchain
    rw [insertLoop_path]
    simp only [insertLoop] at hchain
    split at hchain
    · cases segs with
      | nil =>
        simp only [chainNode?, Option.some.injEq] at hchain
        rw [← hchain, t.setIsHistory_path true]
        rfl
      | cons s rest =>
        rw [chainNode?_congr _ t (t.setIsHistory_children true) _ (by simp)] at hchain
        exact hinv _ n hsegs hchain
    · exact hinv _ n hsegs hchain
  | cons qs qrest ih =>
    intro t hclean hinv segs n hsegs hchain
    rw [insertLoop_path]
    cases segs with
    | nil =>
      simp only [chainNode?, Option.some.injEq] at hchain
      rw [← hchain, insertLoop_path]
      rfl
    | cons s srest =>
      have hsclean : ∀ x ∈ srest, CleanSeg x := fun x hx => hsegs x (by simp [hx])
      rw [chainNode?_cons, insertLoop_cons_children] at hchain
      cases hfind : t.children.find? (fun c => c.name = qs) with
      | none =>
        rw [hfind] at hchain
        simp only [find?_name_append] at hchain
        cases hs : t.children.find? (fun c => c.name = s) with
        | some c =>
          rw [hs] at hchain
          exact hinv (s :: srest) n hsegs (by rw [chainNode?_cons, hs]; exact hchain)
        | none =>
          rw [hs] at hchain
          have hname :
              (insertLoop hist q
                ((Node.mk qs (goJoin t.path qs) (decide (qrest ≠ []))
                  (hist q || hist (goJoin t.path qs)) []).setIsDir true) qrest).name
              = qs := by
            rw [insertLoop_name]
            simp
          by_cases hsq : s = qs
          · subst hsq
            rw [if_pos hname] at hchain
            have hfreshinv : PathInvRel ((Node.mk s (goJoin t.path s)
                (decide (qrest ≠ [])) (hist q || hist (goJoin t.path s))
                []).setIsDir true) := by
              intro segs2 m hclean2 hm
              cases segs2 with
              | nil =>
                simp only [chainNode?, Option.some.injEq] at hm
                rw [← hm]
                rfl
              | cons a b =>
                rw [chainNode?_cons] at hm
                simp [List.find?] at hm
            have hres := ih _ (fun x hx => hclean x (by simp [hx])) hfreshinv
              srest n hsclean hchain
            rw [insertLoop_path] at hres
            rw [hres, pathAcc_cons]
            rfl
          · rw [if_neg (by rw [hname]; exact fun hcontra => hsq hcontra.symm)] at hchain
            simp at hchain
      | some c =>
        rw [hfind] at hchain
        have hcname : c.name = qs := by simpa using List.find?_some hfind
        have hc2name :
            (insertLoop hist q
              ((if hist q || hist c.path then c.setIsHistory true else c).setIsDir true)
              qrest).name = qs := by
          rw [insertLoop_name, flagged_name, hcname]
        by_cases hsq : s = qs
        · subst hsq
          rw [find?_replaceFirst_eq s _ hc2name t.children c hfind] at hchain
          have hcpath : c.path = goJoin t.path s := by
            have := hinv [s] c
              (by
                intro x hx
                rw [List.mem_singleton] at hx
                rw [hx]
                exact hsegs s (by simp))
              (by rw [chainNode?_cons, hfind]; rfl)
            simpa [pathAcc] using this
          have hc1inv : PathInvRel
              ((if hist q || hist c.path then c.setIsHistory true else c).setIsDir
                true) := by
            intro segs2 m hclean2 hm
            cases segs2 with
            | nil =>
              simp only [chainNode?, Option.some.injEq] at hm
              rw [← hm, flagged_path]
              rfl
            | cons a b =>
              rw [chainNode?_congr _ c (flagged_children c _) _ (by simp)] at hm
              have hr := hinv (s :: a :: b) m
                (by
                  intro x hx
                  rcases List.mem_cons.mp hx with hx | hx
                  · rw [hx]
                    exact hsegs s (by simp)
                  · exact hclean2 x hx)
                (by rw [chainNode?_cons, hfind]; exact hm)
              rw [hr, pathAcc_cons, flagged_path, hcpath]
          have hres := ih _ (fun x hx => hclean x (by simp [hx])) hc1inv
            srest n hsclean hchain
          rw [insertLoop_path, flagged_path, hcpath] at hres
          rw [hres, pathAcc_cons]
        · rw [find?_replaceFirst_ne qs s _ hsq hc2name t.children] at hchain
          exact hinv (s :: srest) n hsegs (by rw [chainNode?_cons]; exact hchain)

/-- After the whole build, a clean input path that no other input path
properly extends has a childless node at the end of its segment chain,
carrying exactly that path string. -/
theorem buildTree_unextended (hist : String → Bool) (paths : List String) (p : String)
    (hclean : ∀ q ∈ paths, ∀ s ∈ goSplit q, CleanSeg s)
    (hmem : p ∈ paths)
    (hnoext : ∀ q ∈ paths, ¬(goSplit p <+: goSplit q ∧ goSplit p ≠ goSplit q)) :
    ∃ n, chainNode? (buildTree hist paths) (goSplit p) = some n ∧
      n.path = p ∧ n.children = [] := by
  have hfoldA : ∀ (l : List String) (t : Node),
      (∀ q ∈ l, ∀ s ∈ goSplit q, CleanSeg s) →
      (∀ q ∈ l, ¬(goSplit p <+: goSplit q ∧ goSplit p ≠ goSplit q)) →
      ((∀ n, chainNode? t (goSplit p) = some n → n.children = []) ∧
        PathInvRel t ∧ t.path = ".") →
      ((∀ n, chainNode? (l.foldl (fun root q => insertLoop hist q root (goSplit q)) t)
          (goSplit p) = some n → n.children = []) ∧
        PathInvRel (l.foldl (fun root q => insertLoop hist q root (goSplit q)) t) ∧
        (l.foldl (fun root q => insertLoop hist q root (goSplit q)) t).path = ".") := by
    intro l
    induction l with
    | nil => intro t _ _ h; exact h
    | cons q rest ihl =>
      intro t hcl hno h
      simp only [List.foldl_cons]
      refine ihl _ (fun x hx => hcl x (by simp [hx]))
        (fun x hx => hno x (by simp [hx])) ⟨?_, ?_, ?_⟩
      · exact insertLoop_keeps_leaf hist q (goSplit q) (goSplit p) t
          (hno q (by simp)) h.1
      · exact pathInvRel_preserved hist q (goSplit q) t (hcl q (by simp)) h.2.1
      · rw [insertLoop_path]
        exact h.2.2
  have hkeepfold : ∀ (l : List String) (t : Node),
      (chainNode? t (goSplit p)).isSome →
      (chainNode? (l.foldl (fun root q => insertLoop hist q root (goSplit q)) t)
        (goSplit p)).isSome := by
    intro l
    induction l with
    | nil => intro t h; exact h
    | cons q rest ihl =>
      intro t h
      simp only [List.foldl_cons]
      exact ihl _ (insertLoop_keeps_chain hist q (goSplit q) t (goSplit p) h)
  have hfoldB : ∀ (l : List String) (t : Node), p ∈ l →
      (chainNode? (l.foldl (fun root q => insertLoop hist q root (goSplit q)) t)
        (goSplit p)).isSome := by
    intro l
    induction l with
    | nil => intro t h; simp at h
    | cons q rest ihl =>
      intro t h
      simp only [List.foldl_cons]
      rcases List.mem_cons.mp h with h | h
      · subst h
        exact hkeepfold rest _ (insertLoop_self_chain hist p (goSplit p) t)
      · exact ihl _ h
  obtain ⟨s1, tail, hsp⟩ := List.exists_cons_of_ne_nil (goSplit_ne_nil p)
  have hroot : (∀ n, chainNode? (Node.mk "ROOT" "." true false []) (goSplit p)
        = some n → n.children = []) ∧
      PathInvRel (Node.mk "ROOT" "." true false []) ∧
      (Node.mk "ROOT" "." true false []).path = "." := by
    refine ⟨?_, ?_, rfl⟩
    · intro n h
      rw [hsp, chainNode?_cons] at h
      simp [List.find?] at h
    · intro segs n hcl h
      cases segs with
      | nil =>
        simp only [chainNode?, Option.some.injEq] at h
        rw [← h]
        rfl
      | cons a b =>
        rw [chainNode?_cons] at h
        simp [List.find?] at h
  have hA := hfoldA paths (Node.mk "ROOT" "." true false []) hclean hnoext hroot
  have hB := hfoldB paths (Node.mk "ROOT" "." true false []) hmem
  obtain ⟨n, hn⟩ := Option.isSome_iff_exists.mp hB
  refine ⟨n, hn, ?_, hA.1 n hn⟩
  have hpath := hA.2.1 (goSplit p) n (hclean p hmem) hn
  rw [hA.2.2] at hpath
  rw [hpath, pathAcc_dot _ (goSplit_ne_nil p) (hclean p hmem), joinSegs_goSplit]

theorem subtreeNodes_go_mem : ∀ (cs : List Node) (m : Node),
    m ∈ subtreeNodes.go cs ↔ ∃ x ∈ cs, m ∈ subtreeNodes x := by
  intro cs
  induction cs with
  | nil => intro m; simp [subtreeNodes.go]
  | cons c rest ih =>
    intro m
    simp only [subtreeNodes.go, List.mem_append, ih]
    constructor
    · rintro (h | ⟨x, hx, hm⟩)
      · exact ⟨c, by simp, h⟩
      · exact ⟨x, by simp [hx], hm⟩
    · rintro ⟨x, hx, hm⟩
      rcases List.mem_cons.mp hx with rfl | hx
      · exact Or.inl hm
      · exact Or.inr ⟨x, hx, hm⟩

theorem mem_subtree_cases (a b : String) (c d : Bool) (cs : List Node) (m : Node) :
    m ∈ subtreeNodes (.mk a b c d cs) ↔
      m = .mk a b c d cs ∨ ∃ x ∈ cs, m ∈ subtreeNodes x := by
  simp [subtreeNodes, subtreeNodes_go_mem]

theorem subtreeNodes_self (t : Node) : t ∈ subtreeNodes t := by
  cases t with
  | mk a b c d cs => simp [subtreeNodes]

theorem mem_subtree_of_child (t x m : Node) (hx : x ∈ t.children)
    (hm : m ∈ subtreeNodes x) : m ∈ subtreeNodes t := by
  cases t with
  | mk a b c d cs =>
    rw [mem_subtree_cases]
    exact Or.inr ⟨x, hx, hm⟩

theorem chainNode?_mem_subtree : ∀ (segs : List String) (t n : Node),
    chainNode? t segs = some n → n ∈ subtreeNodes t := by
  intro segs
  induction segs with
  | nil =>
    intro t n h
    simp only [chainNode?, Option.some.injEq] at h
    rw [← h]
    exact subtreeNodes_self t
  | cons s rest ih =>
    intro t n h
    rw [chainNode?_cons] at h
    cases hf : t.children.find? (fun c => c.name = s) with
    | none => rw [hf] at h; simp at h
    | some c =>
      rw [hf] at h
      exact mem_subtree_of_child t c n (List.mem_of_find?_eq_some hf) (ih c n h)

/-- Compression keeps every childless node's path: a leaf is only ever
absorbed as the child side of a merge, and the merged node then adopts
its path and (empty) child list. -/
theorem compressF_preserves_leaf : ∀ (fuel : Nat) (t : Node) (pth : String),
    (∃ m, m ∈ subtreeNodes t ∧ m.path = pth ∧ m.children = []) →
    ∃ m, m ∈ subtreeNodes (compressTreeF fuel t) ∧ m.path = pth ∧ m.children = [] := by
  intro fuel
  induction fuel with
  | zero => intro t pth h; simpa [compressTreeF] using h
  | succ fuel ih =>
    intro t pth h
    cases t with
    | mk a b c d cs =>
      obtain ⟨m, hmem, hp, hc⟩ := h
      simp only [compressTreeF]
      split
      · exact ⟨m, hmem, hp, hc⟩
      · next hguard =>
        have hcs : cs ≠ [] := by
          intro hnil
          exact hguard (Or.inr (by rw [hnil]; rfl))
        have hnotself : ∀ (hm : m = Node.mk a b c d cs), False := by
          intro hm
          rw [hm] at hc
          exact hcs (by simpa using hc)
        rcases (mem_subtree_cases a b c d cs m).mp hmem with hm | ⟨x, hx, hmx⟩
        · exact absurd hm hnotself
        · split
          · -- ROOT: children compressed individually
            obtain ⟨m2, hm2, hp2, hc2⟩ := ih x pth ⟨m, hmx, hp, hc⟩
            exact ⟨m2, mem_subtree_of_child _ (compressTreeF fuel x) m2
              (by simpa using List.mem_map_of_mem (compressTreeF fuel) hx) hm2, hp2, hc2⟩
          · split
            · next c0 hc0 =>
              obtain ⟨x0, hx0, hcc0⟩ : ∃ x0, cs = [x0] ∧ compressTreeF fuel x0 = c0 := by
                cases cs with
                | nil => simp at hc0
                | cons y l =>
                  cases l with
                  | nil =>
                    simp only [List.map_cons, List.map_nil, List.cons.injEq,
                      and_true] at hc0
                    exact ⟨y, rfl, hc0⟩
                  | cons z l2 => simp at hc0
              have hxx0 : x = x0 := by
                rw [hx0] at hx
                simpa using hx
              subst hxx0
              obtain ⟨m2, hm2, hp2, hc2⟩ := ih x pth ⟨m, hmx, hp, hc⟩
              rw [hcc0] at hm2
              split
              · -- threshold skip: children are [c0]
                exact ⟨m2, mem_subtree_of_child _ c0 m2 (by simp) hm2, hp2, hc2⟩
              · -- merge, then re-compress the merged node: the leaf is
                -- either the compressed child itself (the merged node then
                -- adopts its path and empty child list) or lies below one
                -- of the adopted grandchildren
                apply ih
                obtain ⟨a2, b2, c2, d2, cs2⟩ := c0
                rcases (mem_subtree_cases a2 b2 c2 d2 cs2 m2).mp hm2 with hm2e | ⟨y, hy, hmy⟩
                · refine ⟨_, subtreeNodes_self _, ?_, ?_⟩
                  · simp only [Node.path_mk]
                    rw [hm2e] at hp2
                    simpa using hp2
                  · simp only [Node.children_mk]
                    rw [hm2e] at hc2
                    simpa using hc2
                · refine ⟨m2, ?_, hp2, hc2⟩
                  apply mem_subtree_of_child _ y m2 _ hmy
                  simpa using hy
            · obtain ⟨m2, hm2, hp2, hc2⟩ := ih x pth ⟨m, hmx, hp, hc⟩
              exact ⟨m2, mem_subtree_of_child _ (compressTreeF fuel x) m2
                (by simpa using List.mem_map_of_mem (compressTreeF fuel) hx) hm2,
                hp2, hc2⟩

theorem pushChildren_mem_of (p : List Nat) : ∀ (cs : List Node) (i : Nat) (c : Node),
    c ∈ cs → ∃ q, (q, c) ∈ pushChildren p cs i := by
  intro cs
  induction cs with
  | nil => intro i c h; simp at h
  | cons c0 rest ih =>
    intro i c h
    rcases List.mem_cons.mp h with rfl | h
    · exact ⟨p ++ [i], by simp [pushChildren]⟩
    · obtain ⟨q, hq⟩ := ih (i + 1) c h
      exact ⟨q, by simp [pushChildren, hq]⟩

/-- Completeness of the DFS: if some node of some stacked subtree has
the target path, the search succeeds. -/
theorem findDFS_complete (target : String) : ∀ (N : Nat)
    (stack : List (List Nat × Node)), stackSize stack ≤ N →
    (∃ e ∈ stack, ∃ m ∈ subtreeNodes e.2, m.path = target) →
    (findDFS target stack).isSome := by
  intro N
  induction N with
  | zero =>
    intro stack hsz hex
    cases stack with
    | nil => simp at hex
    | cons e rest =>
      obtain ⟨q, nd⟩ := e
      have := Node.size_pos nd
      simp only [stackSize] at hsz
      omega
  | succ N ihN =>
    intro stack hsz hex
    cases stack with
    | nil => simp at hex
    | cons e rest =>
      obtain ⟨q, nd⟩ := e
      rw [findDFS_cons]
      by_cases hp : nd.path = target
      · simp [hp]
      · rw [if_neg hp]
        apply ihN
        · have hsz2 : stackSize ((pushChildren q nd.children 0).reverse ++ rest) + 1
              = nd.size + stackSize rest := by
            simp only [stackSize_append, stackSize_reverse, stackSize_pushChildren]
            cases nd with
            | mk a b c d cs => simp only [Node.size, Node.children]; omega
          simp only [stackSize] at hsz
          omega
        · obtain ⟨e2, he2, m, hm, hmp⟩ := hex
          rcases List.mem_cons.mp he2 with rfl | he2
          · cases hnd : nd with
            | mk a b c d cs =>
              rw [hnd] at hm
              rcases (mem_subtree_cases a b c d cs m).mp hm with rfl | ⟨x, hx, hmx⟩
              · rw [hnd] at hp
                exact absurd hmp hp
              · obtain ⟨qq, hqq⟩ := pushChildren_mem_of q cs 0 x hx
                refine ⟨(qq, x), ?_, m, hmx, hmp⟩
                apply List.mem_append.mpr
                apply Or.inl
                rw [List.mem_reverse]
                simpa using hqq
          · exact ⟨e2, List.mem_append.mpr (Or.inr he2), m, hm, hmp⟩

theorem findNode_complete (root : Node) (target : String)
    (h : ∃ m ∈ subtreeNodes root, m.path = target) : (findNode root target).isSome := by
  unfold findNode
  by_cases hr : root.path = target
  · simp [hr]
  · rw [if_neg hr]
    apply findDFS_complete target (stackSize [([], root)]) _ (Nat.le_refl _)
    obtain ⟨m, hm, hp⟩ := h
    exact ⟨([], root), by simp, m, hm, hp⟩

/-- Amended claim C10: restricted to input paths all of whose segments
are clean (non-empty, not `.` or `..`, separator-free): (1) every such
input path `p` that is not a proper (segment-wise) prefix of another
input path survives build and compression as a node whose `Path` field
is exactly `p`, and `findNode` finds such a node (so the default
selection of the first-ranked path succeeds whenever that path is not
a proper prefix of another input path); and (2) when the first path is
a proper prefix of a later path, its node can be absorbed by a
downward merge — with paths `["a", "a/b"]` the node `a` is merged
away, `findNode` returns nothing, and the selection falls back to the
root's first child.  The cleanliness restriction is necessary: see the
accompanying counterexample on the absolute path `/a`. -/
theorem unextended_path_lookup :
    (∀ (hist : String → Bool) (paths : List String) (p : String),
        (∀ q ∈ paths, ∀ s ∈ goSplit q, CleanSeg s) →
        p ∈ paths →
        (∀ q ∈ paths, ¬(goSplit p <+: goSplit q ∧ goSplit p ≠ goSplit q)) →
        (∃ m ∈ subtreeNodes (compressTree (buildTree hist paths)), m.path = p) ∧
        ∃ pr n, findNode (compressTree (buildTree hist paths)) p = some (pr, n) ∧
          n.path = p ∧
          nodeAt? (compressTree (buildTree hist paths)) pr = some n) ∧
    (findNode (NewTreeModel ["a", "a/b"] 80 20 (fun _ => false)).root "a" = none ∧
      (NewTreeModel ["a", "a/b"] 80 20 (fun _ => false)).root
        = .mk "ROOT" "." true false [.mk "a/b" "a/b" true false []] ∧
      (NewTreeModel ["a", "a/b"] 80 20 (fun _ => false)).selected = [0]) := by
  constructor
  · intro hist paths p hclean hmem hnoext
    obtain ⟨n0, hchain, hpath, hleaf⟩ :=
      buildTree_unextended hist paths p hclean hmem hnoext
    have hmem0 : n0 ∈ subtreeNodes (buildTree hist paths) :=
      chainNode?_mem_subtree _ _ _ hchain
    obtain ⟨m, hm, hmp, hmc⟩ :=
      compressF_preserves_leaf (Node.size (buildTree hist paths))
        (buildTree hist paths) p ⟨n0, hmem0, hpath, hleaf⟩
    refine ⟨⟨m, hm, hmp⟩, ?_⟩
    have hfind := findNode_complete (compressTree (buildTree hist paths)) p
      ⟨m, hm, hmp⟩
    obtain ⟨pn, hpn⟩ := Option.isSome_iff_exists.mp hfind
    obtain ⟨pr, n⟩ := pn
    obtain ⟨hat, hpa⟩ := findNode_sound _ _ _ _ hpn
    exact ⟨pr, n, hpn, hpa, hat⟩
  · exact ⟨rfl, rfl, rfl⟩

/-- A concrete instance of `unextended_path_lookup`: the path `x/y` of
the list `["x/y", "z"]` (a proper prefix of nothing) is found by the
lookup after build and compression. -/
theorem unextended_path_lookup_witness :
    (∃ m ∈ subtreeNodes (compressTree (buildTree (fun _ => false) ["x/y", "z"])),
        m.path = "x/y") ∧
    ∃ pr n, findNode (compressTree (buildTree (fun _ => false) ["x/y", "z"])) "x/y"
        = some (pr, n) ∧ n.path = "x/y" ∧
        nodeAt? (compressTree (buildTree (fun _ => false) ["x/y", "z"])) pr
          = some n :=
  unextended_path_lookup.1 (fun _ => false) ["x/y", "z"] "x/y"
    (by decide) (by decide) (by decide)

/-- Counterexample to claim C10 as stated: the claim quantifies over
every input path list, but on a non-clean input it fails.  For the
absolute path `/a` — a proper prefix of no input — `buildTree` accrues
node paths with `filepath.Join` starting from `.`, which drops the
empty leading segment, so the surviving node's `Path` is `a`: no node
of the built-and-compressed tree carries the path `/a`, `findNode`
returns nothing, and the default selection falls back to the root's
first child. -/
theorem nonclean_path_lookup_cex :
    ("/a" ∈ ["/a"] ∧
      ∀ q ∈ ["/a"], ¬(goSplit "/a" <+: goSplit q ∧ goSplit "/a" ≠ goSplit q)) ∧
    (∀ m ∈ subtreeNodes (compressTree (buildTree (fun _ => false) ["/a"])),
        m.path ≠ "/a") ∧
    (compressTree (buildTree (fun _ => false) ["/a"])).children.map Node.path
        = ["a"] ∧
    findNode (compressTree (buildTree (fun _ => false) ["/a"])) "/a" = none ∧
    (NewTreeModel ["/a"] 80 20 (fun _ => false)).selected = [0] :=
  ⟨⟨by decide, by decide⟩, by decide, rfl, rfl, rfl⟩

theorem canvasInit_nonneg (w h : Int) (hw : 0 ≤ w) (hh : 0 ≤ h) :
    ∃ canvas, canvasInit w h = some canvas ∧ CanvasWF w h canvas := by
  refine ⟨List.replicate h.toNat (List.replicate w.toNat ' '), ?_, ?_, ?_⟩
  · unfold canvasInit
    rw [if_neg (by omega), if_neg (by omega)]
  · simp
  · intro row hrow
    rw [List.eq_of_mem_replicate hrow]
    simp

theorem listSet?_isSome {α : Type} (v : α) : ∀ (l : List α) (k : Nat), k < l.length →
    ∃ l', listSet? l k v = some l' ∧ l'.length = l.length ∧
      ∀ a ∈ l', a = v ∨ a ∈ l := by
  intro l
  induction l with
  | nil => intro k h; simp at h
  | cons a l ih =>
    intro k h
    cases k with
    | zero =>
      refine ⟨v :: l, rfl, by simp, ?_⟩
      intro x hx
      rcases List.mem_cons.mp hx with rfl | hx
      · exact Or.inl rfl
      · exact Or.inr (by simp [hx])
    | succ k =>
      obtain ⟨l', hl', hlen, hmem⟩ := ih k (by simpa using h)
      refine ⟨a :: l', by simp [listSet?, hl'], by simp [hlen], ?_⟩
      intro x hx
      rcases List.mem_cons.mp hx with rfl | hx
      · exact Or.inr (by simp)
      · rcases hmem x hx with h2 | h2
        · exact Or.inl h2
        · exact Or.inr (by simp [h2])

theorem canvasWrite_wf (w h : Int) (canvas : List (List Char)) (sy x : Nat) (c : Char)
    (hwf : CanvasWF w h canvas) (hsy : sy < h.toNat) (hx : x < w.toNat) :
    ∃ canvas', canvasWrite canvas sy x c = some canvas' ∧ CanvasWF w h canvas' := by
  obtain ⟨hlen, hrows⟩ := hwf
  have hsy2 : sy < canvas.length := by omega
  have hget : canvas[sy]? = some canvas[sy] := List.getElem?_eq_getElem hsy2
  have hrowlen : canvas[sy].length = w.toNat :=
    hrows _ (List.getElem_mem hsy2)
  obtain ⟨row', hrow', hrlen, _⟩ := listSet?_isSome c canvas[sy] x (by omega)
  obtain ⟨canvas', hcv, hclen, hcmem⟩ := listSet?_isSome row' canvas sy hsy2
  refine ⟨canvas', ?_, ?_, ?_⟩
  · unfold canvasWrite
    rw [hget]
    simp [hrow', hcv]
  · omega
  · intro r hr
    rcases hcmem r hr with rfl | hr2
    · omega
    · exact hrows r hr2

theorem drawGo_wf (w h : Int) (sy : Nat) (x : Int) :
    ∀ (s : List Char) (canvas : List (List Char)) (i : Nat),
    CanvasWF w h canvas → sy < h.toNat →
    ∃ canvas', drawGo w sy x canvas i s = some canvas' ∧ CanvasWF w h canvas' := by
  intro s
  induction s with
  | nil => intro canvas i hwf _; exact ⟨canvas, rfl, hwf⟩
  | cons r rest ih =>
    intro canvas i hwf hsy
    by_cases hg : 0 ≤ x + (i : Int) ∧ x + (i : Int) < w
    · have hxlt : (x + (i : Int)).toNat < w.toNat := by omega
      obtain ⟨canvas1, hw1, hwf1⟩ :=
        canvasWrite_wf w h canvas sy (x + (i : Int)).toNat r hwf hsy hxlt
      obtain ⟨canvas', hd, hwf'⟩ := ih canvas1 (i + 1) hwf1 hsy
      exact ⟨canvas', by rw [drawGo, if_pos hg, hw1]; exact hd, hwf'⟩
    · obtain ⟨canvas', hd, hwf'⟩ := ih canvas (i + 1) hwf hsy
      exact ⟨canvas', by rw [drawGo, if_neg hg, hd], hwf'⟩

theorem drawString_wf (w h scroll : Int) (canvas : List (List Char)) (x y : Int)
    (s : List Char) (hwf : CanvasWF w h canvas) :
    ∃ canvas', drawString w h scroll canvas x y s = some canvas' ∧
      CanvasWF w h canvas' := by
  unfold drawString
  by_cases h1 : y < scroll ∨ scroll + h ≤ y
  · exact ⟨canvas, by rw [if_pos h1], hwf⟩
  · rw [if_neg h1]
    by_cases h2 : w ≤ x
    · exact ⟨canvas, by rw [if_pos h2], hwf⟩
    · rw [if_neg h2]
      exact drawGo_wf w h (y - scroll).toNat x s canvas 0 hwf (by omega)

theorem connDraw_wf (w h scroll vx : Int) (childrenYs : List Int) (minY maxY : Int)
    (clen : Nat) : ∀ (count : Nat) (y : Int) (canvas : List (List Char)),
    CanvasWF w h canvas →
    ∃ canvas', connDraw w h scroll vx childrenYs minY maxY clen count y canvas =
      some canvas' ∧ CanvasWF w h canvas' := by
  intro count
  induction count with
  | zero => intro y canvas hwf; exact ⟨canvas, rfl, hwf⟩
  | succ k ih =>
    intro y canvas hwf
    rw [connDraw]
    obtain ⟨canvas1, hd1, hwf1⟩ := drawString_wf w h scroll canvas vx y _ hwf
    rw [hd1]
    by_cases hic : childrenYs.contains y
    · simp only [hic, if_true]
      obtain ⟨canvas2, hd2, hwf2⟩ := drawString_wf w h scroll canvas1 (vx + 1) y _ hwf1
      rw [hd2]
      exact ih (y + 1) canvas2 hwf2
    · simp only [hic, if_false]
      exact ih (y + 1) canvas1 hwf1

theorem nodeLayoutWidth_bounds (b : Bool) (n : Node) :
    20 ≤ nodeLayoutWidth b n ∧ nodeLayoutWidth b n ≤ 40 := by
  simp only [nodeLayoutWidth]
  split_ifs <;> omega

theorem layoutAssignF_widths_mono : ∀ (fuel : Nat) (sel p : List Nat) (n : Node)
    (depth : Nat) (st : LState) (d : Nat),
    st.widths d ≤ (layoutAssignF fuel sel p n depth st).widths d := by
  intro fuel
  induction fuel with
  | zero => intro sel p n depth st d; exact Nat.le_refl _
  | succ fuel ih =>
    intro sel p n depth st d
    simp only [layoutAssignF]
    have hfold : ∀ (l : List (Nat × Node)) (st' : LState) (q : List Nat),
        st'.widths d ≤ (l.foldl (fun acc ic =>
            layoutAssignF fuel sel (q ++ [ic.1]) ic.2 (depth + 1) acc) st').widths d := by
      intro l
      induction l with
      | nil => intro st' q; exact Nat.le_refl _
      | cons ic rest ihl =>
        intro st' q
        simp only [List.foldl_cons]
        exact Nat.le_trans (ih sel (q ++ [ic.1]) ic.2 (depth + 1) st' d) (ihl _ q)
    refine Nat.le_trans ?_ (hfold _ _ _)
    by_cases hgt : nodeLayoutWidth (decide (p = sel)) n > st.widths depth
    · simp only [hgt, if_true, updateFn]
      by_cases hd : d = depth
      · subst hd
        rw [if_pos rfl]
        omega
      · rw [if_neg hd]
    · simp only [hgt, if_false]
      exact Nat.le_refl _

/-- Invariant: every recorded assignment's column has a width of at
least 20 (the lower clamp of `nodeLayoutWidth`). -/
theorem layoutAssignF_widths_ge : ∀ (fuel : Nat) (sel p : List Nat) (n : Node)
    (depth : Nat) (st : LState),
    (∀ e ∈ st.assigns, 20 ≤ st.widths e.2.1) →
    ∀ e ∈ (layoutAssignF fuel sel p n depth st).assigns,
      20 ≤ (layoutAssignF fuel sel p n depth st).widths e.2.1 := by
  intro fuel
  induction fuel with
  | zero => intro sel p n depth st hinv; exact hinv
  | succ fuel ih =>
    intro sel p n depth st hinv
    simp only [layoutAssignF]
    have hfold : ∀ (l : List (Nat × Node)) (st' : LState) (q : List Nat),
        (∀ e ∈ st'.assigns, 20 ≤ st'.widths e.2.1) →
        ∀ e ∈ (l.foldl (fun acc ic =>
            layoutAssignF fuel sel (q ++ [ic.1]) ic.2 (depth + 1) acc) st').assigns,
          20 ≤ (l.foldl (fun acc ic =>
            layoutAssignF fuel sel (q ++ [ic.1]) ic.2 (depth + 1) acc) st').widths e.2.1 := by
      intro l
      induction l with
      | nil => intro st' q h; exact h
      | cons ic rest ihl =>
        intro st' q h
        simp only [List.foldl_cons]
        exact ihl _ q (ih sel (q ++ [ic.1]) ic.2 (depth + 1) st' h)
    apply hfold
    intro e he
    have hb := nodeLayoutWidth_bounds (decide (p = sel)) n
    rcases List.mem_append.mp he with he1 | he2
    · have := hinv e he1
      by_cases hgt : nodeLayoutWidth (decide (p = sel)) n > st.widths depth
      · simp only [hgt, if_true, updateFn]
        split
        · omega
        · exact this
      · simp only [hgt, if_false]
        exact this
    · have he3 : e = (p, depth, st.ys depth) := by simpa using he2
      subst he3
      dsimp only
      by_cases hgt : nodeLayoutWidth (decide (p = sel)) n > st.widths depth
      · simp only [hgt, if_true, updateFn]
        omega
      · simp only [hgt, if_false]
        omega

/-- Invariant: every recorded assignment's X equals its position's
depth (the length of the position). -/
theorem layoutAssignF_x_len : ∀ (fuel : Nat) (sel p : List Nat) (n : Node)
    (depth : Nat) (st : LState), depth = p.length →
    (∀ e ∈ st.assigns, e.2.1 = e.1.length) →
    ∀ e ∈ (layoutAssignF fuel sel p n depth st).assigns, e.2.1 = e.1.length := by
  intro fuel
  induction fuel with
  | zero => intro sel p n depth st _ hinv; exact hinv
  | succ fuel ih =>
    intro sel p n depth st hdep hinv
    simp only [layoutAssignF]
    have hfold : ∀ (l : List (Nat × Node)) (st' : LState) (q : List Nat),
        depth = q.length →
        (∀ e ∈ st'.assigns, e.2.1 = e.1.length) →
        ∀ e ∈ (l.foldl (fun acc ic =>
            layoutAssignF fuel sel (q ++ [ic.1]) ic.2 (depth + 1) acc) st').assigns,
          e.2.1 = e.1.length := by
      intro l
      induction l with
      | nil => intro st' q _ h; exact h
      | cons ic rest ihl =>
        intro st' q hq h
        simp only [List.foldl_cons]
        refine ihl _ q hq (ih sel (q ++ [ic.1]) ic.2 (depth + 1) st' ?_ h)
        simp [hq]
    apply hfold _ _ _ hdep
    intro e he
    rcases List.mem_append.mp he with he1 | he2
    · exact hinv e he1
    · have he3 : e = (p, depth, st.ys depth) := by simpa using he2
      subst he3
      simpa using hdep

theorem visitedList_child (fuel : Nat) (sel p : List Nat) (n : Node)
    (i : Nat) (c : Node) (hic : (i, c) ∈ visibleChildrenIdx sel p n)
    (e : List Nat × Node) (he : e ∈ visitedList fuel sel (p ++ [i]) c) :
    e ∈ visitedList (fuel + 1) sel p n := by
  simp only [visitedList, List.mem_cons]
  refine Or.inr (List.mem_flatten.mpr ⟨visitedList fuel sel (p ++ [i]) c, ?_, he⟩)
  exact List.mem_map.mpr ⟨(i, c), hic, rfl⟩

theorem visitedList_prefix : ∀ (fuel : Nat) (sel p : List Nat) (n : Node)
    (q : List Nat) (m : Node), (q, m) ∈ visitedList fuel sel p n → p <+: q := by
  intro fuel
  induction fuel with
  | zero => intro sel p n q m h; simp [visitedList] at h
  | succ fuel ih =>
    intro sel p n q m h
    simp only [visitedList, List.mem_cons] at h
    rcases h with h | h
    · have hq : q = p := congrArg Prod.fst h
      subst hq
      exact List.prefix_rfl
    · obtain ⟨l, hl, hel⟩ := List.mem_flatten.mp h
      obtain ⟨ic, hic, rfl⟩ := List.mem_map.mp hl
      have := ih sel (p ++ [ic.1]) ic.2 q m hel
      exact List.IsPrefix.trans ⟨[ic.1], rfl⟩ this

theorem visitedList_take : ∀ (fuel : Nat) (sel p : List Nat) (n : Node)
    (q : List Nat) (m : Node), (q, m) ∈ visitedList fuel sel p n →
    ∀ k, p.length ≤ k → k ≤ q.length →
    ∃ m', (q.take k, m') ∈ visitedList fuel sel p n := by
  intro fuel
  induction fuel with
  | zero => intro sel p n q m h; simp [visitedList] at h
  | succ fuel ih =>
    intro sel p n q m h k hk1 hk2
    simp only [visitedList, List.mem_cons] at h
    rcases h with h | h
    · have hq : q = p := congrArg Prod.fst h
      subst hq
      have hkq : k = q.length := by omega
      subst hkq
      exact ⟨n, by simp [visitedList]⟩
    · obtain ⟨l, hl, hel⟩ := List.mem_flatten.mp h
      obtain ⟨ic, hic, rfl⟩ := List.mem_map.mp hl
      by_cases hk3 : p.length + 1 ≤ k
      · obtain ⟨m', hm'⟩ := ih sel (p ++ [ic.1]) ic.2 q m hel k (by simpa using hk3) hk2
        exact ⟨m', visitedList_child fuel sel p n ic.1 ic.2
          (by simpa using hic) (q.take k, m') hm'⟩
      · have hkp : k = p.length := by omega
        subst hkp
        have hpre : p ++ [ic.1] <+: q := visitedList_prefix fuel sel _ _ q m hel
        have htake : q.take p.length = p := by
          have h1 : q.take (p ++ [ic.1]).length = p ++ [ic.1] :=
            (List.prefix_iff_eq_take.mp hpre).symm
          have h2 : q.take p.length = (q.take (p ++ [ic.1]).length).take p.length := by
            rw [List.take_take]
            congr 1
            simp only [List.length_append, List.length_cons, List.length_nil]
            omega
          rw [h2, h1]
          simp
        rw [htake]
        exact ⟨n, by simp [visitedList]⟩

theorem visitedList_assigned : ∀ (fuel : Nat) (sel p : List Nat) (n : Node)
    (depth : Nat) (st : LState) (q : List Nat) (m : Node),
    (q, m) ∈ visitedList fuel sel p n →
    ∃ x y, (q, x, y) ∈ (layoutAssignF fuel sel p n depth st).assigns := by
  intro fuel
  induction fuel with
  | zero => intro sel p n depth st q m h; simp [visitedList] at h
  | succ fuel ih =>
    intro sel p n depth st q m h
    simp only [visitedList, List.mem_cons] at h
    rcases h with h | h
    · have hq : q = p := congrArg Prod.fst h
      subst hq
      exact ⟨depth, st.ys depth,
        layoutAssignF_assigns_self (fuel + 1) sel q n depth st (by omega)⟩
    · obtain ⟨l, hl, hel⟩ := List.mem_flatten.mp h
      obtain ⟨ic, hic, rfl⟩ := List.mem_map.mp hl
      simp only [layoutAssignF]
      have hfold : ∀ (l2 : List (Nat × Node)) (st' : LState),
          ic ∈ l2 →
          ∃ x y, (q, x, y) ∈ (l2.foldl (fun acc jc =>
            layoutAssignF fuel sel (p ++ [jc.1]) jc.2 (depth + 1) acc) st').assigns := by
        intro l2
        induction l2 with
        | nil => intro st' hmem; simp at hmem
        | cons jc rest ihl =>
          intro st' hmem
          simp only [List.foldl_cons]
          rcases List.mem_cons.mp hmem with rfl | hmem2
          · obtain ⟨x, y, hxy⟩ := ih sel (p ++ [ic.1]) ic.2 (depth + 1) st' q m hel
            obtain ⟨suf, hsuf⟩ := layout_foldl_assigns_mono fuel sel (depth + 1) rest
              (layoutAssignF fuel sel (p ++ [ic.1]) ic.2 (depth + 1) st') p
            exact ⟨x, y, by rw [hsuf]; exact List.mem_append.mpr (Or.inl hxy)⟩
          · exact ihl _ hmem2
      exact hfold (visibleChildrenIdx sel p n) _ hic

theorem coordOf_mem : ∀ (assigns : List (List Nat × Nat × Nat)) (q : List Nat)
    (x y : Nat), coordOf assigns q = some (x, y) → (q, x, y) ∈ assigns := by
  intro assigns
  induction assigns with
  | nil => intro q x y h; simp [coordOf] at h
  | cons e rest ih =>
    intro q x y h
    obtain ⟨q0, x0, y0⟩ := e
    simp only [coordOf] at h
    by_cases hq : q0 = q
    · rw [if_pos hq] at h
      subst hq
      refine List.mem_cons.mpr (Or.inl ?_)
      have hx : x0 = x ∧ y0 = y := by
        constructor <;> [exact congrArg Prod.fst (Option.some.inj h);
          exact congrArg Prod.snd (Option.some.inj h)]
      rw [hx.1, hx.2]
    · rw [if_neg hq] at h
      exact List.mem_cons.mpr (Or.inr (ih q x y h))

theorem coordOf_isSome : ∀ (assigns : List (List Nat × Nat × Nat)) (q : List Nat)
    (x y : Nat), (q, x, y) ∈ assigns →
    ∃ x2 y2, coordOf assigns q = some (x2, y2) := by
  intro assigns
  induction assigns with
  | nil => intro q x y h; simp at h
  | cons e rest ih =>
    intro q x y h
    obtain ⟨q0, x0, y0⟩ := e
    simp only [coordOf]
    by_cases hq : q0 = q
    · exact ⟨x0, y0, by rw [if_pos hq]⟩
    · rw [if_neg hq]
      rcases List.mem_cons.mp h with heq | hmem
    
      · exact absurd (congrArg Prod.fst heq.symm) hq
      · exact ih q x y hmem

/-- Every column at or left of a traversed node's assigned column has
width at least 20 in the freshly computed layout. -/
theorem layoutRoot_widths_ge (sel : List Nat) (root : Node) (q : List Nat)
    (m : Node) (hq : (q, m) ∈ visitedList root.size sel [] root) (k : Nat)
    (hk : (k : Int) ≤ lookupX (layoutRoot sel root).assigns q) :
    20 ≤ (layoutRoot sel root).widths k := by
  have hxlen : ∀ e ∈ (layoutRoot sel root).assigns, e.2.1 = e.1.length :=
    layoutAssignF_x_len root.size sel [] root 0 _ rfl (by intro e he; simp at he)
  have hwge : ∀ e ∈ (layoutRoot sel root).assigns,
      20 ≤ (layoutRoot sel root).widths e.2.1 :=
    layoutAssignF_widths_ge root.size sel [] root 0 _ (by intro e he; simp at he)
  obtain ⟨x, y, hxy⟩ := visitedList_assigned root.size sel [] root 0 _ q m hq
  obtain ⟨x2, y2, hco⟩ := coordOf_isSome _ q x y hxy
  have hmem2 : (q, x2, y2) ∈ (layoutRoot sel root).assigns := coordOf_mem _ q x2 y2 hco
  have hx2 : x2 = q.length := hxlen _ hmem2
  have hlook : lookupX (layoutRoot sel root).assigns q = (x2 : Int) := by
    unfold lookupX layoutRoot
    rw [hco]
  have hkq : k ≤ q.length := by
    rw [hlook, hx2] at hk
    exact_mod_cast hk
  obtain ⟨m', hm'⟩ := visitedList_take root.size sel [] root q m hq k (by simp) hkq
  obtain ⟨x3, y3, hxy3⟩ := visitedList_assigned root.size sel [] root 0 _ _ m' hm'
  have hx3 : x3 = (q.take k).length := hxlen _ hxy3
  have htk : (q.take k).length = k := by
    rw [List.length_take]
    omega
  have := hwge _ hxy3
  rw [hx3, htk] at this
  exact this

theorem truncName_isSome (colWidth : Nat) (name2 : String) (hcw : 2 ≤ colWidth) :
    ∃ name3, truncName colWidth name2 = some name3 := by
  unfold truncName
  by_cases htr : (colWidth : Int) - 2 < (goStrLen name2 : Int)
  · rw [if_pos htr]
    unfold strByteTake
    rw [if_pos (by omega)]
    exact ⟨_, rfl⟩
  · rw [if_neg htr]
    exact ⟨name2, rfl⟩

theorem drawNode_wf (sel : List Nat) (assigns : List (List Nat × Nat × Nat))
    (widths : Nat → Nat) (shiftX : Int) (scrollX : Nat) (w h scroll : Int)
    (p : List Nat) (n : Node) (canvas : List (List Char))
    (hwf : CanvasWF w h canvas) (hshift : shiftX ≤ -1)
    (hwk : ∀ k : Nat, (k : Int) ≤ lookupX assigns p → 20 ≤ widths k) :
    ∃ canvas', drawNode sel assigns widths shiftX scrollX w h scroll p n canvas
      = some canvas' ∧ CanvasWF w h canvas' := by
  unfold drawNode
  by_cases hdr : 0 ≤ lookupX assigns p + shiftX - (scrollX : Int) ∧
      (if 0 ≤ lookupX assigns p + shiftX - (scrollX : Int) then
        ((sumWidthsFrom widths scrollX
          (lookupX assigns p + shiftX - (scrollX : Int)).toNat : Nat) : Int)
      else -100) < w
  · rw [if_pos hdr]
    have hnx : (0 : Int) ≤ lookupX assigns p + shiftX := by
      have := hdr.1
      omega
    have hcw : 2 ≤ widthsAt widths (lookupX assigns p + shiftX) := by
      unfold widthsAt
      rw [if_neg (by omega)]
      have : ((lookupX assigns p + shiftX).toNat : Int) ≤ lookupX assigns p := by
        omega
      have := hwk (lookupX assigns p + shiftX).toNat this
      omega
    obtain ⟨name3, hn3⟩ := truncName_isSome _ (nodeDisplayName sel p n) hcw
    rw [hn3]
    exact drawString_wf w h scroll canvas _ _ _ hwf
  · rw [if_neg hdr]
    exact ⟨canvas, rfl, hwf⟩

theorem connNode_wf (assigns : List (List Nat × Nat × Nat)) (widths : Nat → Nat)
    (shiftX : Int) (scrollX : Nat) (w h scroll : Int) (p : List Nat)
    (cs : List (Nat × Node)) (canvas : List (List Char)) (hwf : CanvasWF w h canvas) :
    ∃ canvas', connNode assigns widths shiftX scrollX w h scroll p cs canvas
      = some canvas' ∧ CanvasWF w h canvas' := by
  unfold connNode
  by_cases h1 : (scrollX : Int) ≤ lookupX assigns p + shiftX
  · rw [if_pos h1]
    by_cases h2 : (sumWidthsFrom widths scrollX
        ((lookupX assigns p + shiftX) - (scrollX : Int)).toNat : Int)
        + (widthsAt widths (lookupX assigns p + shiftX) : Int) - 2 < w
    · rw [if_pos h2]
      exact connDraw_wf w h scroll _ _ _ _ _ _ _ canvas hwf
    · rw [if_neg h2]
      exact ⟨canvas, rfl, hwf⟩
  · rw [if_neg h1]
    exact ⟨canvas, rfl, hwf⟩

theorem renderNodeF_wf : ∀ (fuel : Nat) (sel : List Nat)
    (assigns : List (List Nat × Nat × Nat)) (widths : Nat → Nat)
    (shiftX : Int) (scrollX : Nat) (w h scroll : Int) (p : List Nat) (n : Node)
    (canvas : List (List Char)), CanvasWF w h canvas → shiftX ≤ -1 →
    (∀ q m, (q, m) ∈ visitedList fuel sel p n →
      ∀ k : Nat, (k : Int) ≤ lookupX assigns q → 20 ≤ widths k) →
    ∃ canvas', renderNodeF sel assigns widths shiftX scrollX w h scroll fuel p n
      canvas = some canvas' ∧ CanvasWF w h canvas' := by
  intro fuel
  induction fuel with
  | zero =>
    intro sel assigns widths shiftX scrollX w h scroll p n canvas hwf _ _
    exact ⟨canvas, rfl, hwf⟩
  | succ fuel ih =>
    intro sel assigns widths shiftX scrollX w h scroll p n canvas hwf hshift hvis
    rw [renderNodeF]
    obtain ⟨canvas1, hd1, hwf1⟩ := drawNode_wf sel assigns widths shiftX scrollX
      w h scroll p n canvas hwf hshift
      (hvis p n (by simp [visitedList]))
    rw [hd1]
    cases hvc : visibleChildrenIdx sel p n with
    | nil => exact ⟨canvas1, rfl, hwf1⟩
    | cons c0 crest =>
      obtain ⟨canvas2, hd2, hwf2⟩ := connNode_wf assigns widths shiftX scrollX
        w h scroll p (c0 :: crest) canvas1 hwf1
      dsimp only
      rw [hd2]
      have hfold : ∀ (l : List (Nat × Node)), (∀ ic ∈ l, ic ∈ visibleChildrenIdx sel p n) →
          ∀ cv, CanvasWF w h cv →
          ∃ cv', (l.foldlM (fun cv ic =>
              renderNodeF sel assigns widths shiftX scrollX w h scroll fuel
                (p ++ [ic.1]) ic.2 cv) cv) = some cv' ∧ CanvasWF w h cv' := by
        intro l
        induction l with
        | nil => intro _ cv hcv; exact ⟨cv, rfl, hcv⟩
        | cons ic rest ihl =>
          intro hsub cv hcv
          have hics : ic ∈ visibleChildrenIdx sel p n := hsub ic (by simp)
          obtain ⟨cv1, hcv1, hwfcv1⟩ := ih sel assigns widths shiftX scrollX
            w h scroll (p ++ [ic.1]) ic.2 cv hcv hshift
            (fun q m hq => hvis q m
              (visitedList_child fuel sel p n ic.1 ic.2 (by simpa using hics)
                (q, m) hq))
          obtain ⟨cv', hcv', hwfcv'⟩ := ihl (fun jc hjc => hsub jc (by simp [hjc]))
            cv1 hwfcv1
          refine ⟨cv', ?_, hwfcv'⟩
          rw [List.foldlM_cons, hcv1]
          exact hcv'
      exact hfold (c0 :: crest) (fun ic hic => hvc ▸ hic) canvas2 hwf2

theorem lookupX_nonneg (assigns : List (List Nat × Nat × Nat)) (q : List Nat) :
    0 ≤ lookupX assigns q := by
  unfold lookupX
  split
  · exact Int.natCast_nonneg _
  · exact Int.le_refl 0

theorem viewShiftX_le (m : TreeModel) : viewShiftX m ≤ -1 := by
  unfold viewShiftX
  split
  · have := lookupX_nonneg (layoutRoot m.selected m.root).assigns
      (displayRootPos m.root)
    omega
  · omega

theorem flattenCanvas_cons_cons (r s : List Char) (t : List (List Char)) :
    flattenCanvas (r :: s :: t) = r ++ '\n' :: flattenCanvas (s :: t) := rfl

theorem flattenCanvas_replicate : ∀ k : Nat,
    flattenCanvas (List.replicate k []) = List.replicate (k - 1) '\n' := by
  intro k
  induction k with
  | zero => rfl
  | succ k ih =>
    cases k with
    | zero => rfl
    | succ k2 =>
      rw [List.replicate_succ, List.replicate_succ, flattenCanvas_cons_cons,
        ← List.replicate_succ, ih]
      simp [List.replicate_succ]

/-- With a nonnegative viewport, `View` renders some frame whose canvas
is well formed. -/
theorem view_some_wf (m : TreeModel) (hw : 0 ≤ m.width) (hh : 0 ≤ m.height) :
    ∃ canvas, TreeModel.View m = some (String.mk (flattenCanvas canvas)) ∧
      CanvasWF m.width m.height canvas := by
  obtain ⟨canvas0, hc0, hwf0⟩ := canvasInit_nonneg m.width m.height hw hh
  obtain ⟨canvas, hrender, hwfc⟩ := renderNodeF_wf m.root.size m.selected
    (layoutRoot m.selected m.root).assigns (layoutRoot m.selected m.root).widths
    (viewShiftX m) (viewScrollX m) m.width m.height m.scrollOffset [] m.root
    canvas0 hwf0 (viewShiftX_le m)
    (fun q mm hq k hk => layoutRoot_widths_ge m.selected m.root q mm hq k hk)
  refine ⟨canvas, ?_, hwfc⟩
  unfold TreeModel.View
  rw [hc0]
  dsimp only
  rw [hrender]

/-- C8: the render function is NOT total on all dimensions: a negative
height, or a negative width together with a positive height, makes
`View`'s canvas allocation fail (a Go `make` panic), instead of
degrading to an empty frame. -/
theorem view_negative_dims_cex :
    TreeModel.View ⟨Node.mk "ROOT" "." true false [], [], 80, -1, 0⟩ = none ∧
    TreeModel.View ⟨Node.mk "ROOT" "." true false [], [], -3, 2, 0⟩ = none :=
  ⟨rfl, rfl⟩

/-- C8 (amended): with nonnegative dimensions the render always
completes — no slice or index panic; with height 0 it returns the empty
frame, and with width 0 (any nonnegative height) a frame of empty rows. -/
theorem render_total_nonneg :
    (∀ m : TreeModel, 0 ≤ m.width → 0 ≤ m.height →
      (TreeModel.View m).isSome = true) ∧
    (∀ m : TreeModel, m.height = 0 → TreeModel.View m = some "") ∧
    (∀ m : TreeModel, m.width = 0 → 0 ≤ m.height →
      TreeModel.View m =
        some (String.mk (List.replicate (m.height.toNat - 1) '\n'))) := by
  refine ⟨?_, ?_, ?_⟩
  · intro m hw hh
    obtain ⟨canvas, hv, _⟩ := view_some_wf m hw hh
    rw [hv]
    rfl
  · intro m hh0
    have hc0 : canvasInit m.width m.height = some [] := by
      rw [hh0]
      rfl
    have hwf0 : CanvasWF m.width m.height [] := by
      constructor
      · simp [hh0]
      · intro row hrow
        simp at hrow
    obtain ⟨canvas, hrender, hwfc⟩ := renderNodeF_wf m.root.size m.selected
      (layoutRoot m.selected m.root).assigns (layoutRoot m.selected m.root).widths
      (viewShiftX m) (viewScrollX m) m.width m.height m.scrollOffset [] m.root
      [] hwf0 (viewShiftX_le m)
      (fun q mm hq k hk => layoutRoot_widths_ge m.selected m.root q mm hq k hk)
    have hcanvas : canvas = [] := by
      have := hwfc.1
      rw [hh0] at this
      exact List.eq_nil_of_length_eq_zero this
    unfold TreeModel.View
    rw [hc0]
    dsimp only
    rw [hrender, hcanvas]
    rfl
  · intro m hw0 hh
    obtain ⟨canvas, hv, hwfc⟩ := view_some_wf m (by rw [hw0]) hh
    have hcanvas : canvas = List.replicate m.height.toNat [] := by
      rw [List.eq_replicate_iff]
      refine ⟨hwfc.1, fun b hb => ?_⟩
      have := hwfc.2 b hb
      rw [hw0] at this
      exact List.eq_nil_of_length_eq_zero (by simpa using this)
    rw [hv, hcanvas, flattenCanvas_replicate]

/-- Witness for the amended render-totality theorem at a concrete
model. -/
theorem render_total_nonneg_witness :
    (0 : Int) ≤ 7 ∧ (0 : Int) ≤ 2 ∧
    (TreeModel.View ⟨Node.mk "ROOT" "." true false [], [], 7, 2, 0⟩).isSome
      = true :=
  ⟨by decide, by decide,
    render_total_nonneg.1 ⟨Node.mk "ROOT" "." true false [], [], 7, 2, 0⟩
      (by decide) (by decide)⟩
